import Mathlib

/-!
Verification development for the `av-streams-dashoard` repository
(`mmv_daily_total.py` and `app.py`).

Modelling conventions for the shallow embedding:
* Python strings are `List Char` (`Line`); Python `None` / pandas `NaN`
  is `Val.null` or `Option.none`.
* The totals CSV file is a list of lines, each line the exact character
  sequence including a trailing newline where present (Python
  `readlines` / `writelines` round-trip on such lists).
* Python `str.isdigit`, `str.strip`, `unicodedata` and `re` are modelled
  on the ASCII + Greek character repertoire that the program's patterns
  and data exercise; characters outside the tables behave as unadorned,
  non-whitespace, non-combining characters.
-/

abbrev Line := List Char

/-- Whitespace characters recognised by Python `str.strip` and `\s`
(the fragment the program's data can contain). -/
def wsChars : Line := [' ', '\t', '\n', '\r', '\x0b', '\x0c']

def pyIsSpace (c : Char) : Bool := wsChars.contains c

/-- Python `str.strip()`: drop leading and trailing whitespace. -/
def pyStrip (s : Line) : Line :=
  ((s.dropWhile pyIsSpace).reverse.dropWhile pyIsSpace).reverse

/-- Value of a string of decimal digit characters. -/
def decVal (ds : Line) : Nat := ds.foldl (fun a c => a * 10 + (c.toNat - 48)) 0

/-- `parse_human_int` (mmv_daily_total.py:42-46): `str(s).strip().replace(",","")`,
then `int(s) if s.isdigit() else None`.  There is no k/m/b suffix handling. -/
def parse_human_int (s : Line) : Option Int :=
  let t := (pyStrip s).filter (fun c => c ≠ ',')
  if t ≠ [] ∧ t.all Char.isDigit then some (decVal t) else Option.none

/-- Digit characters of `m`, most significant first (`f` is fuel; `f ≥ m`
is enough since `m / 10 < m` for positive `m`). -/
def decDigits : Nat → Nat → List Char
  | _, 0 => []
  | 0, _ + 1 => []
  | f + 1, m + 1 =>
    decDigits f ((m + 1) / 10) ++ [Char.ofNat (48 + (m + 1) % 10)]

/-- Decimal rendering of a natural number, mirroring Python `str(n)`. -/
def natToDec (n : Nat) : Line :=
  if n = 0 then ['0'] else decDigits n n

/-- Decimal rendering of an integer, mirroring Python `str(i)`. -/
def intToDec (i : Int) : Line :=
  if i < 0 then '-' :: natToDec i.natAbs else natToDec i.natAbs

/-- Python `int(s)` on a string: strip whitespace, optional sign, digits. -/
def pyIntParse (s : Line) : Option Int :=
  match pyStrip s with
  | '-' :: ds => if ds ≠ [] ∧ ds.all Char.isDigit then some (-(decVal ds : Int)) else Option.none
  | '+' :: ds => if ds ≠ [] ∧ ds.all Char.isDigit then some ((decVal ds : Int)) else Option.none
  | ds => if ds ≠ [] ∧ ds.all Char.isDigit then some ((decVal ds : Int)) else Option.none

/-- Bool test that `p` is a prefix of `s` (Python `str.startswith`). -/
def lstarts : Line → Line → Bool
  | [], _ => true
  | _ :: _, [] => false
  | a :: as, b :: bs => a = b && lstarts as bs

/-! ## The totals-CSV upsert (mmv_daily_total.py:171-205) -/

def headerLine : Line := "date,total_plays,daily_delta,source\n".toList

def srcSuffix : Line := ",MusicMetricsVault.com (personal use)\n".toList

def headerTag : Line := "date,".toList

def lineIsHeader (ln : Line) : Bool := lstarts headerTag ln

def todayTag (d : Line) : Line := d ++ [',']

def lineIsToday (d : Line) (ln : Line) : Bool := lstarts (todayTag d) ln

/-- A line that `if ln.strip()` treats as empty. -/
def isBlankL (ln : Line) : Bool := ln.all pyIsSpace

/-- `ln.split(",")[1]` followed by `int(...)`, as in the prev-total scan;
`Option.none` models the caught exception (no comma, or unparseable). -/
def parseField1 (ln : Line) : Option Int :=
  match ln.dropWhile (fun c => c ≠ ',') with
  | [] => Option.none
  | _ :: rest => pyIntParse (rest.takeWhile (fun c => c ≠ ','))

/-- The `for ln in reversed(lines)` scan (mmv_daily_total.py:179-185),
given the already-reversed list: skip header lines and today's line,
return the first field-1 integer found. -/
def prevScanAux (d : Line) : List Line → Option Int
  | [] => Option.none
  | ln :: rest =>
    if lineIsHeader ln ∨ lineIsToday d ln then prevScanAux d rest
    else
      match parseField1 ln with
      | some v => some v
      | Option.none => prevScanAux d rest

def scanPrevTotal (d : Line) (lines : List Line) : Option Int :=
  prevScanAux d lines.reverse

/-- Reading the totals file: absent file gives no lines, an existing file's
lines are kept only when non-blank (mmv_daily_total.py:176-178). -/
def linesOf (file : Option (List Line)) : List Line :=
  match file with
  | Option.none => []
  | some c => c.filter (fun ln => !(isBlankL ln))

/-- `daily_delta = 0 if prev_total is None else (deduped_total - prev_total)`. -/
def upsertDeltaOf (file : Option (List Line)) (d : Line) (total : Int) : Int :=
  match scanPrevTotal d (linesOf file) with
  | Option.none => 0
  | some p => total - p

/-- `f"{today_str},{deduped_total},{daily_delta},MusicMetricsVault.com (personal use)\n"`. -/
def mkTodayLine (d : Line) (total delta : Int) : Line :=
  d ++ [','] ++ intToDec total ++ [','] ++ intToDec delta ++ srcSuffix

/-- `ln if ln.endswith("\n") else (ln + "\n")`. -/
def ensureNL (ln : Line) : Line :=
  if ln.getLast? = some '\n' then ln else ln ++ ['\n']

/-- Replace the first element satisfying `p` with `new`; `Option.none`
when no element matches. -/
def replFirst (p : Line → Bool) (new : Line) : List Line → Option (List Line)
  | [] => Option.none
  | ln :: rest =>
    if p ln then some (new :: rest)
    else (replFirst p new rest).map (fun l => ln :: l)

/-- The replace-from-the-end-or-append step (mmv_daily_total.py:194-201). -/
def upsertLines2 (lines : List Line) (d : Line) (tl : Line) : List Line :=
  match replFirst (lineIsToday d) tl lines.reverse with
  | some l => l.reverse
  | Option.none => lines ++ [tl]

/-- The write-out step (mmv_daily_total.py:202-205): prepend a header when
the first line is not a header, and ensure each line ends in a newline. -/
def upsertWrite (lines2 : List Line) : List Line :=
  (if lineIsHeader (lines2.headD []) then lines2 else headerLine :: lines2).map ensureNL

/-- The full upsert step (mmv_daily_total.py:171-205): read and blank-filter
the file, compute `prev_total` and `daily_delta`, then replace today's row
scanning from the end, or append it; prepend a header when the first line
is not a header; ensure every written line ends in a newline. -/
def upsertToday (file : Option (List Line)) (d : Line) (total : Int) : List Line :=
  if (linesOf file).isEmpty then
    [headerLine, mkTodayLine d total (upsertDeltaOf file d total)]
  else
    upsertWrite (upsertLines2 (linesOf file) d (mkTodayLine d total (upsertDeltaOf file d total)))

/-- Iterated runs of the upsert for one date: first with total `t`, then
with the totals in `ts`. -/
def runUpserts (file : Option (List Line)) (d : Line) (t : Int) (ts : List Int) : List Line :=
  ts.foldl (fun f t2 => upsertToday (some f) d t2) (upsertToday file d t)

/-! ## Title normalization (mmv_daily_total.py:56-63)

`str.lower`, `unicodedata.normalize("NFD")` and the `Mn` category are
modelled by finite tables over the repertoire the program exercises
(ASCII letters and the Greek letters of the exclusion patterns); other
characters behave as unadorned non-combining characters. -/

def lowerTable : List (Char × Char) :=
  [('A', 'a'), ('B', 'b'), ('C', 'c'), ('D', 'd'), ('E', 'e'), ('F', 'f'), ('G', 'g'),
   ('H', 'h'), ('I', 'i'), ('J', 'j'), ('K', 'k'), ('L', 'l'), ('M', 'm'), ('N', 'n'),
   ('O', 'o'), ('P', 'p'), ('Q', 'q'), ('R', 'r'), ('S', 's'), ('T', 't'), ('U', 'u'),
   ('V', 'v'), ('W', 'w'), ('X', 'x'), ('Y', 'y'), ('Z', 'z'),
   ('Α', 'α'), ('Γ', 'γ'), ('Η', 'η'), ('Μ', 'μ'), ('Ο', 'ο'), ('Π', 'π'),
   ('Ρ', 'ρ'), ('Υ', 'υ'),
   ('Ά', 'ά'), ('Έ', 'έ'), ('Ή', 'ή'), ('Ί', 'ί'), ('Ό', 'ό'), ('Ύ', 'ύ'), ('Ώ', 'ώ')]

def alookup (c : Char) : List (Char × Char) → Option Char
  | [] => Option.none
  | p :: ps => if p.1 = c then some p.2 else alookup c ps

/-- Python `str.lower()`, per character. -/
def pyLower (c : Char) : Char := (alookup c lowerTable).getD c

/-- Canonical (NFD) decompositions of the precomposed Greek tonos vowels. -/
def nfdTable : List (Char × Line) :=
  [('ά', ['α', '́']), ('έ', ['ε', '́']), ('ή', ['η', '́']),
   ('ί', ['ι', '́']), ('ό', ['ο', '́']), ('ύ', ['υ', '́']),
   ('ώ', ['ω', '́'])]

def nlookup (c : Char) : List (Char × Line) → Option Line
  | [] => Option.none
  | p :: ps => if p.1 = c then some p.2 else nlookup c ps

def nfdChar (c : Char) : Line := (nlookup c nfdTable).getD [c]

/-- Combining marks (category `Mn`) of the modelled repertoire. -/
def mnChars : Line := ['̀', '́']

def isMn (c : Char) : Bool := mnChars.contains c

/-- `strip_accents` (mmv_daily_total.py:56-57): NFD-decompose, drop marks. -/
def strip_accents (s : Line) : Line :=
  (s.flatMap nfdChar).filter (fun c => !(isMn c))

/-- `re.sub(r"\s+", " ", t)`: collapse each whitespace run to one space. -/
def collapseWs : Line → Line
  | [] => []
  | [c] => if pyIsSpace c then [' '] else [c]
  | c :: d :: rest =>
    if pyIsSpace c then
      (if pyIsSpace d then collapseWs (d :: rest) else ' ' :: collapseWs (d :: rest))
    else c :: collapseWs (d :: rest)

/-- `norm_title_preserve_version` (mmv_daily_total.py:59-63):
strip, lower, strip accents, collapse whitespace. -/
def norm_title_preserve_version (t : Line) : Line :=
  collapseWs (strip_accents ((pyStrip t).map pyLower))

/-! ## The exclusion patterns (mmv_daily_total.py:17-24, 68-70)

The four patterns are word-boundary-delimited literals, the last with
`\s*` gaps; `re.search` with `IGNORECASE` is modelled by a scan over
start positions with case-insensitive literal matching. -/

inductive Tok where
  | lit : Line → Tok
  | wsStar : Tok
deriving DecidableEq

def icEq (a b : Char) : Bool := pyLower a = pyLower b

def litMatch : Line → Line → Option Line
  | [], s => some s
  | _ :: _, [] => Option.none
  | a :: as, b :: bs => if icEq a b then litMatch as bs else Option.none

def matchToks : List Tok → Line → Option Line
  | [], s => some s
  | Tok.lit l :: ts, s =>
    (match litMatch l s with
     | some r => matchToks ts r
     | Option.none => Option.none)
  | Tok.wsStar :: ts, s => matchToks ts (s.dropWhile pyIsSpace)

/-- Regex `\w` over the modelled repertoire (ASCII alphanumerics,
underscore, Greek block). -/
def isWordChar (c : Char) : Bool :=
  c.isAlphanum || c = '_' || (decide (0x370 ≤ c.toNat) && decide (c.toNat ≤ 0x3FF))

def boundaryOkA (prev : Option Char) : Bool :=
  match prev with
  | Option.none => true
  | some c => !(isWordChar c)

def matchHereB (ts : List Tok) (s : Line) : Bool :=
  match matchToks ts s with
  | some [] => true
  | some (c :: _) => !(isWordChar c)
  | Option.none => false

def searchAux (ts : List Tok) : Option Char → Line → Bool
  | prev, [] => boundaryOkA prev && matchHereB ts []
  | prev, c :: rest =>
    (boundaryOkA prev && matchHereB ts (c :: rest)) || searchAux ts (some c) rest

def reSearch (ts : List Tok) (s : Line) : Bool := searchAux ts Option.none s

def patMouri : List Tok := [Tok.lit "mouri".toList]

def patMouriGr : List Tok := [Tok.lit "μουρη".toList]

def patMouriGrTonos : List Tok := [Tok.lit "μούρη".toList]

def patStaHronia : List Tok :=
  [Tok.lit "sta hronia tis ipomonis".toList, Tok.wsStar, Tok.lit "-".toList, Tok.wsStar,
   Tok.lit "remastered".toList, Tok.wsStar, Tok.lit "2005".toList]

def EXCLUDE_PATTERNS : List (List Tok) := [patMouri, patMouriGr, patMouriGrTonos, patStaHronia]

/-- `should_exclude` (mmv_daily_total.py:68-70). -/
def should_exclude (title : Line) : Bool :=
  EXCLUDE_PATTERNS.any (fun p => reSearch p (norm_title_preserve_version title))

/-! ## Duration parsing and the dedupe key (mmv_daily_total.py:48-66) -/

def splitColon (t : Line) : Option (Line × Line) :=
  match t.dropWhile (fun c => c ≠ ':') with
  | [] => Option.none
  | _ :: b =>
    let a := t.takeWhile (fun c => c ≠ ':')
    if a ≠ [] ∧ a.all Char.isDigit ∧ b ≠ [] ∧ b.length ≤ 2 ∧ b.all Char.isDigit
    then some (a, b) else Option.none

/-- Python banker's rounding of `ip . frac` to an integer. -/
def roundHalfEven (ip : Nat) (frac : Line) : Nat :=
  match frac with
  | [] => ip
  | f :: rest =>
    if 53 < f.toNat then ip + 1
    else if f.toNat < 53 then ip
    else if rest.all (fun c => c = '0') then (if ip % 2 = 0 then ip else ip + 1)
    else ip + 1

/-- `int(round(float(t)))` for non-negative decimal literals; other float
syntax is outside the modelled fragment and maps to `None`. -/
def floatRound (t : Line) : Option Int :=
  match t.dropWhile (fun c => c ≠ '.') with
  | [] => if t ≠ [] ∧ t.all Char.isDigit then some ((decVal t : Int)) else Option.none
  | _ :: frac =>
    let ip := t.takeWhile (fun c => c ≠ '.')
    if ip ≠ [] ∧ ip.all Char.isDigit ∧ frac.all Char.isDigit
    then some ((roundHalfEven (decVal ip) frac : Int)) else Option.none

/-- `parse_duration_to_seconds` (mmv_daily_total.py:48-54). -/
def parse_duration_to_seconds (s : Line) : Option Int :=
  let t := pyStrip s
  match splitColon t with
  | some (a, b) => some ((decVal a : Int) * 60 + (decVal b : Int))
  | Option.none => floatRound t

/-! ## Values, records and the dedupe step (mmv_daily_total.py:146-158) -/

/-- A pandas cell: a string, an integer, or NaN/None. -/
inductive Val where
  | str : Line → Val
  | int : Int → Val
  | null : Val
deriving DecidableEq

def Val.isNull : Val → Bool
  | .null => true
  | _ => false

/-- Python `str(v or "")` as applied inside `norm_title_preserve_version`. -/
def valOrEmpty : Val → Line
  | .str s => s
  | .null => []
  | .int n => if n = 0 then [] else intToDec n

def normVal (v : Val) : Line := norm_title_preserve_version (valOrEmpty v)

def shouldExcludeV (v : Val) : Bool :=
  EXCLUDE_PATTERNS.any (fun p => reSearch p (normVal v))

/-- `parse_duration_to_seconds` on a cell; an integer cell round-trips
through `str`. -/
def durSecsV : Val → Option Int
  | .null => Option.none
  | .str s => parse_duration_to_seconds s
  | .int n => some n

def showOptInt : Option Int → Line
  | Option.none => "None".toList
  | some n => intToDec n

/-- `make_dedupe_key` (mmv_daily_total.py:65-66). -/
def make_dedupe_key (title dur : Val) : Line :=
  normVal title ++ '|' :: showOptInt (durSecsV dur)

structure Rec where
  title : Val
  plays : Val
  duration : Val
  release_date : Val
  cover_url : Val
deriving DecidableEq

def keyOf (r : Rec) : Line := make_dedupe_key r.title r.duration

def pKey : Val → Option Int
  | .int n => some n
  | _ => Option.none

/-- NaN-last descending comparison for the stable model of
`sort_values("plays", ascending=False)`. -/
def leSort (x r : Option Int) : Bool :=
  match x, r with
  | Option.none, _ => true
  | some _, Option.none => false
  | some a, some b => a ≤ b

def insDesc (r : Rec) : List Rec → List Rec
  | [] => [r]
  | x :: xs => if leSort (pKey x.plays) (pKey r.plays) then r :: x :: xs else x :: insDesc r xs

def sortDesc : List Rec → List Rec
  | [] => []
  | r :: rs => insDesc r (sortDesc rs)

/-- Pandas `"first"` aggregation: first non-null value of the group. -/
def firstNonNull (vs : List Val) : Val :=
  (vs.filter (fun v => !(v.isNull))).headD Val.null

/-- Pandas `"max"` aggregation: max over non-null values, NaN when none. -/
def maxAgg (vs : List Val) : Val :=
  match vs.filterMap pKey with
  | [] => Val.null
  | n :: ns => Val.int (ns.foldl max n)

def aggGroup (g : List Rec) : Rec :=
  { title := firstNonNull (g.map Rec.title)
    plays := maxAgg (g.map Rec.plays)
    duration := firstNonNull (g.map Rec.duration)
    release_date := firstNonNull (g.map Rec.release_date)
    cover_url := firstNonNull (g.map Rec.cover_url) }

/-- The distinct keys in first-occurrence order (the groups pandas forms). -/
def firstKeys : List Line → List Line
  | [] => []
  | k :: ks => k :: (firstKeys ks).filter (fun x => x ≠ k)

/-- The dedupe step (mmv_daily_total.py:146-158): key each row, sort by
plays descending (modelled stably), group by key, and aggregate each group
(max plays, pandas-`first` on the other columns). -/
def dedupe (rs : List Rec) : List Rec :=
  (firstKeys ((sortDesc rs).map keyOf)).map
    (fun k => aggGroup ((sortDesc rs).filter (fun r => keyOf r = k)))

/-! ## Table extraction (mmv_daily_total.py:72-114) and the pipeline -/

structure Td where
  text : Line
  img : Option (List (Line × Line))
deriving DecidableEq

structure Table where
  headers : List Line
  trs : List (List Td)
deriving DecidableEq

def tlookup (n : Line) : List (Line × Line) → Option Line
  | [] => Option.none
  | p :: ps => if p.1 = n then some p.2 else tlookup n ps

def protoFix (v : Line) : Line :=
  if lstarts "//".toList v then "https:".toList ++ v else v

def imgAttrNames : List Line :=
  ["src".toList, "data-src".toList, "data-lazy".toList, "data-original".toList]

def imgScan (attrs : List (Line × Line)) : List Line → Option Line
  | [] => Option.none
  | n :: ns =>
    match tlookup n attrs with
    | some v => if pyStrip v ≠ [] then some (protoFix v) else imgScan attrs ns
    | Option.none => imgScan attrs ns

/-- `extract_img_url` (mmv_daily_total.py:81-91). -/
def extract_img_url (td : Td) : Option Line :=
  match td.img with
  | Option.none => Option.none
  | some attrs => imgScan attrs imgAttrNames

def optVal : Option Line → Val
  | some v => Val.str v
  | Option.none => Val.null

/-- One `tr`: skipped if it has no `td` or fewer `td`s than headers;
otherwise the first `len(headers)` cell texts plus the cover of `tds[0]`. -/
def extractRowCells (headers : List Line) (tds : List Td) : Option (List Val) :=
  match tds with
  | [] => Option.none
  | t0 :: _ =>
    if tds.length < headers.length then Option.none
    else some ((tds.take headers.length).map (fun td => Val.str td.text) ++
               [optVal (extract_img_url t0)])

/-- `h.strip().lower().replace(" ", "_")` (mmv_daily_total.py:104). -/
def colName (h : Line) : Line :=
  ((pyStrip h).map pyLower).map (fun c => if c = ' ' then '_' else c)

def colIdx : List Line → Line → Option Nat
  | [], _ => Option.none
  | c :: cs, n => if c = n then some 0 else (colIdx cs n).map (fun i => i + 1)

def getVal (cols : List Line) (row : List Val) (n : Line) : Val :=
  match colIdx cols n with
  | some i => row.getD i Val.null
  | Option.none => Val.null

def applyParse : Val → Val
  | Val.null => Val.null
  | Val.str s =>
    (match parse_human_int s with
     | some n => Val.int n
     | Option.none => Val.null)
  | Val.int n => if 0 ≤ n then Val.int n else Val.null

structure DF where
  cols : List Line
  rows : List (List Val)
deriving DecidableEq

def nTitle : Line := "title".toList

def nPlays : Line := "plays".toList

def nDuration : Line := "duration".toList

def nRelease : Line := "release_date".toList

def nCover : Line := "cover_url".toList

def nTrack : Line := "track".toList

/-- Columns after the rename (mmv_daily_total.py:104-111); only `track`
is actually renamed (the other three rename entries are identities). -/
def renamedCols (t : Table) : List Line :=
  ((t.headers.map colName) ++ [nCover]).map (fun c => if c = nTrack then nTitle else c)

/-- `table_to_dataframe` (mmv_daily_total.py:79-114): positional rows
(short rows skipped), cover column, rename, parse the plays column, drop
rows with null title or plays.  `Option.none` models the KeyError raised
when the `plays` or `title` column is absent. -/
def table_to_dataframe (t : Table) : Option DF :=
  match colIdx (renamedCols t) nPlays, colIdx (renamedCols t) nTitle with
  | some pi, some ti =>
    some { cols := renamedCols t,
           rows := ((t.trs.filterMap (extractRowCells t.headers)).map
                     (fun r => r.set pi (applyParse (r.getD pi Val.null)))).filter
                   (fun r => !((r.getD ti Val.null).isNull) && !((r.getD pi Val.null).isNull)) }
  | _, _ => Option.none

def recOfRow (cols : List Line) (row : List Val) : Rec :=
  { title := getVal cols row nTitle
    plays := getVal cols row nPlays
    duration := getVal cols row nDuration
    release_date := getVal cols row nRelease
    cover_url := getVal cols row nCover }

structure PipeOut where
  rawRows : List (List Val)
  cols : List Line
  deduped : List Rec
  total : Int
deriving DecidableEq

def playsFill (r : Rec) : Int :=
  match r.plays with
  | Val.int n => n
  | _ => 0

/-- `int(df_dedup["plays"].fillna(0).astype(int).sum())`. -/
def sumPlays (l : List Rec) : Int := (l.map playsFill).sum

/-- The per-run data path of `main` after the table is located
(mmv_daily_total.py:131-169): exclusion filtering, the persisted raw
snapshot, the deduped snapshot, and the deduped total.  `Option.none`
models a KeyError on a missing required column. -/
def pipeline (t : Table) : Option PipeOut :=
  match table_to_dataframe t with
  | Option.none => Option.none
  | some df =>
    match colIdx df.cols nDuration, colIdx df.cols nRelease, colIdx df.cols nCover with
    | some _, some _, some _ =>
      some { rawRows := df.rows.filter (fun r => !(shouldExcludeV (getVal df.cols r nTitle)))
             cols := df.cols
             deduped := dedupe ((df.rows.filter
               (fun r => !(shouldExcludeV (getVal df.cols r nTitle)))).map (recOfRow df.cols))
             total := sumPlays (dedupe ((df.rows.filter
               (fun r => !(shouldExcludeV (getVal df.cols r nTitle)))).map (recOfRow df.cols))) }
    | _, _, _ => Option.none

def addRow (t : Table) (tr : List Td) : Table := { t with trs := t.trs ++ [tr] }

/-! ## The dashboard's per-track delta (app.py:106-124) -/

structure ARow where
  title : Val
  plays : Val
  isrc : Val
deriving DecidableEq

/-- Join-key choice (app.py:116): ISRC when both snapshots have any
non-null ISRC, else raw title. -/
def useIsrc (today prev : List ARow) : Bool :=
  today.any (fun r => !(r.isrc.isNull)) && prev.any (fun r => !(r.isrc.isNull))

def jKey (u : Bool) (r : ARow) : Val := if u then r.isrc else r.title

/-- `pd.merge(df_today, df_prev, on=key, how="left")` at row granularity:
each today row paired with each matching prev row in order, or with
`none` when unmatched. -/
def mergedPairs (today prev : List ARow) : List (ARow × Option ARow) :=
  today.flatMap (fun tr =>
    let ms := prev.filter (fun p => jKey (useIsrc today prev) p = jKey (useIsrc today prev) tr)
    if ms.isEmpty then [(tr, Option.none)] else ms.map (fun p => (tr, some p)))

def pdSub : Val → Val → Val
  | Val.int a, Val.int b => Val.int (a - b)
  | _, _ => Val.null

def fill0 : Val → Int
  | Val.int n => n
  | _ => 0

/-- `delta_col = (merged["plays_today"] - merged["plays_prev"]).fillna(0)`
(app.py:119). -/
def deltaCol (today prev : List ARow) : List Int :=
  (mergedPairs today prev).map (fun pr =>
    fill0 (pdSub pr.1.plays (match pr.2 with
                             | some p => p.plays
                             | Option.none => Val.null)))

/-- The first-day branch (app.py:121-123): every row gets delta 0. -/
def deltaColFirstDay (today : List ARow) : List Int := today.map (fun _ => 0)

/-! ## Spec-side helpers -/

def lexLt : Line → Line → Bool
  | [], [] => false
  | [], _ :: _ => true
  | _ :: _, [] => false
  | a :: as, b :: bs => if a = b then lexLt as bs else decide (a < b)

def dateOfLine (ln : Line) : Line := ln.takeWhile (fun c => c ≠ ',')

/-- Modelled from the spec (§3): the `total_plays` of the most recent
earlier date present in the record, among parseable rows dated strictly
before `d`. -/
def specPrevTotal (rows : List Line) (d : Line) : Option Int :=
  match rows.filter (fun ln => lexLt (dateOfLine ln) d && !((parseField1 ln).isNone)) with
  | [] => Option.none
  | c :: cs =>
    parseField1 (cs.foldl (fun acc ln => if lexLt (dateOfLine acc) (dateOfLine ln) then ln else acc) c)

def todayCountOpt (d : Line) (file : Option (List Line)) : Nat :=
  match file with
  | Option.none => 0
  | some c => (c.filter (lineIsToday d)).length

/-- Two duplicate-key records used as concrete dedupe inputs: same title and
duration (hence the same dedupe key); the higher-plays one has a null
cover_url, the lower-plays one carries cover url "u". -/
def recA : Rec :=
  ⟨Val.str ['a'], Val.int 120, Val.str "1:00".toList, Val.str "2000".toList, Val.null⟩

def recB : Rec :=
  ⟨Val.str ['a'], Val.int 100, Val.str "1:00".toList, Val.str "2001".toList, Val.str ['u']⟩

/-- The non-mark residue of a character under lower-casing and NFD: the
first non-combining character of `nfdChar (pyLower c)` (the character
itself when no table applies). -/
def bChar (c : Char) : Char :=
  ((nfdChar (pyLower c)).filter (fun d => !(isMn d))).headD c

/-- A line is whitespace-normal: every whitespace character is a single
space and no two whitespace characters are adjacent — the shape
`collapseWs` produces. -/
def wsNorm : Line → Bool
  | [] => true
  | [c] => !(pyIsSpace c) || decide (c = ' ')
  | c :: d :: rest =>
    (!(pyIsSpace c) || (decide (c = ' ') && !(pyIsSpace d))) && wsNorm (d :: rest)

/-! ## C5: the plays parser -/

/-- C5 counterexample: the spec claims a trailing `k` magnitude suffix is
recognised, so that `parse("1.2k") = round(1.2 * 1000) = 1200`; the code
returns `None` for `"1.2k"`. -/
theorem c5_suffix_counterexample :
    parse_human_int ('1' :: '.' :: '2' :: 'k' :: []) = Option.none ∧
    Option.none ≠ some (1200 : Int) := by
  constructor
  · decide
  · decide

/-- C5 amended: the parser strips surrounding whitespace and removes every
comma; a non-empty all-digit remainder parses to its decimal value; a string
whose stripped form ends in a k/m/b magnitude suffix is unparseable; any
remainder containing a non-digit is unparseable (`None`), never `0`. -/
theorem c5_parse_human_int_amended (s : Line) :
    (((pyStrip s).filter (fun c => c ≠ ',')) ≠ [] →
      ((pyStrip s).filter (fun c => c ≠ ',')).all Char.isDigit = true →
      parse_human_int s = some ((decVal ((pyStrip s).filter (fun c => c ≠ ','))) : Int)) ∧
    ((pyStrip s).getLastD '0' ∈ (['k', 'K', 'm', 'M', 'b', 'B'] : List Char) →
      parse_human_int s = Option.none) ∧
    (((pyStrip s).filter (fun c => c ≠ ',')).all Char.isDigit = false →
      parse_human_int s = Option.none) := by
  refine ⟨?_, ?_, ?_⟩
  · intro h1 h2
    simp only [parse_human_int]
    rw [if_pos ⟨h1, h2⟩]
  · intro hsuf
    have hne : pyStrip s ≠ [] := by
      intro h
      rw [h] at hsuf
      simp at hsuf
    have hlast : (pyStrip s).getLast hne ∈ (['k', 'K', 'm', 'M', 'b', 'B'] : List Char) := by
      rwa [List.getLastD_eq_getLast?, List.getLast?_eq_getLast _ hne] at hsuf
    have hmem : (pyStrip s).getLast hne ∈ pyStrip s := List.getLast_mem hne
    have hlast2 : (pyStrip s).getLast hne = 'k' ∨ (pyStrip s).getLast hne = 'K' ∨
        (pyStrip s).getLast hne = 'm' ∨ (pyStrip s).getLast hne = 'M' ∨
        (pyStrip s).getLast hne = 'b' ∨ (pyStrip s).getLast hne = 'B' := by
      simpa using hlast
    have hcm : (pyStrip s).getLast hne ∈ (pyStrip s).filter (fun c => c ≠ ',') := by
      rw [List.mem_filter]
      refine ⟨hmem, ?_⟩
      rcases hlast2 with h | h | h | h | h | h <;> simp [h]
    have hnd : ¬ (((pyStrip s).filter (fun c => c ≠ ',')).all Char.isDigit = true) := by
      intro hall
      have := List.all_eq_true.mp hall _ hcm
      rcases hlast2 with h | h | h | h | h | h <;> rw [h] at this <;> simp [Char.isDigit] at this
    simp only [parse_human_int]
    rw [if_neg]
    intro hcontr
    exact hnd hcontr.2
  · intro hnd
    simp only [parse_human_int]
    rw [if_neg]
    intro hcontr
    rw [hcontr.2] at hnd
    cases hnd

/-- Witness for the amended C5 theorem at `"12,345"`. -/
theorem c5_parse_human_int_amended_witness :
    parse_human_int "12,345".toList = some (12345 : Int) := by
  have h := (c5_parse_human_int_amended "12,345".toList).1 (by decide) (by decide)
  simpa using h

/-! ## C7: the dashboard's per-track delta -/

/-- C7 counterexample: the claim says the join is by DedupeKey and that an
unmatched today record gets `dailyChange = plays(today)`.  The code joins by
raw title (no ISRC present), so two rows with equal normalized titles but
different raw titles do not match, and the unmatched row's delta is
`fillna(0) = 0`, not `plays(today) = 5` (nor the matched formula `5 - 3`). -/
theorem c7_counterexample :
    deltaCol [⟨Val.str "Agapi".toList, Val.int 5, Val.null⟩]
             [⟨Val.str "AGAPI".toList, Val.int 3, Val.null⟩] = [0] ∧
    norm_title_preserve_version "Agapi".toList = norm_title_preserve_version "AGAPI".toList ∧
    (0 : Int) ≠ 5 ∧ (0 : Int) ≠ 5 - 3 := by
  refine ⟨by decide, by decide, by decide, by decide⟩

/-- C7 amended: the per-track delta is a left join of today's records
against the previous snapshot, keyed by ISRC when both snapshots have any
non-null ISRC and by raw title otherwise; a matched pair gets
`dailyChange = plays(today) − plays(previous)` (0 when either is null),
and an unmatched today record uniformly gets `dailyChange = 0`. -/
theorem c7_deltas_amended (today prev : List ARow) :
    (deltaCol today prev = (mergedPairs today prev).map (fun pr =>
        match pr.2 with
        | Option.none => 0
        | some p => fill0 (pdSub pr.1.plays p.plays))) ∧
    (∀ pr ∈ mergedPairs today prev, pr.1 ∈ today ∧
      (∀ p, pr.2 = some p →
        p ∈ prev ∧ jKey (useIsrc today prev) p = jKey (useIsrc today prev) pr.1) ∧
      (pr.2 = Option.none →
        ∀ p ∈ prev, jKey (useIsrc today prev) p ≠ jKey (useIsrc today prev) pr.1)) ∧
    (∀ tr ∈ today, ∃ pr ∈ mergedPairs today prev, pr.1 = tr) := by
  refine ⟨?_, ?_, ?_⟩
  · unfold deltaCol
    apply List.map_congr_left
    intro pr _
    match hp : pr.2 with
    | Option.none =>
      show fill0 (pdSub pr.1.plays Val.null) = 0
      cases pr.1.plays <;> rfl
    | some p => rfl
  · intro pr hpr
    rw [mergedPairs, List.mem_flatMap] at hpr
    obtain ⟨tr, htr, hmem⟩ := hpr
    by_cases hms : (prev.filter (fun p =>
        jKey (useIsrc today prev) p = jKey (useIsrc today prev) tr)).isEmpty = true
    · rw [if_pos hms] at hmem
      have hpr1 : pr = (tr, Option.none) := by simpa using hmem
      subst hpr1
      refine ⟨htr, ?_, ?_⟩
      · intro p hp
        cases hp
      · intro _ p hp hkey
        rw [List.isEmpty_eq_true, List.filter_eq_nil_iff] at hms
        exact hms p hp (by simpa using hkey)
    · rw [if_neg hms] at hmem
      rw [List.mem_map] at hmem
      obtain ⟨p, hpmem, hpr1⟩ := hmem
      rw [List.mem_filter] at hpmem
      subst hpr1
      refine ⟨htr, ?_, ?_⟩
      · intro q hq
        cases hq
        exact ⟨hpmem.1, by simpa using hpmem.2⟩
      · intro hnone
        cases hnone
  · intro tr htr
    by_cases hms : (prev.filter (fun p =>
        jKey (useIsrc today prev) p = jKey (useIsrc today prev) tr)).isEmpty = true
    · refine ⟨(tr, Option.none), ?_, rfl⟩
      rw [mergedPairs, List.mem_flatMap]
      exact ⟨tr, htr, by rw [if_pos hms]; simp⟩
    · rw [List.isEmpty_eq_true] at hms
      obtain ⟨p, hp⟩ := List.exists_mem_of_ne_nil _ hms
      refine ⟨(tr, some p), ?_, rfl⟩
      rw [mergedPairs, List.mem_flatMap]
      refine ⟨tr, htr, ?_⟩
      rw [if_neg (by rw [List.isEmpty_eq_true]; exact hms)]
      rw [List.mem_map]
      exact ⟨p, hp, rfl⟩

/-- Witness for the amended C7 theorem on a one-row pair of snapshots. -/
theorem c7_deltas_amended_witness :
    ∃ pr ∈ mergedPairs [⟨Val.str ['a'], Val.int 5, Val.null⟩]
                       [⟨Val.str ['a'], Val.int 3, Val.null⟩],
      pr.1 = ⟨Val.str ['a'], Val.int 5, Val.null⟩ :=
  (c7_deltas_amended [⟨Val.str ['a'], Val.int 5, Val.null⟩]
    [⟨Val.str ['a'], Val.int 3, Val.null⟩]).2.2 _ (by decide)

/-! ## Line-level lemmas for the upsert -/

theorem lstarts_iff (p s : Line) : lstarts p s = true ↔ ∃ r, s = p ++ r := by
  induction p generalizing s with
  | nil => simp [lstarts]
  | cons a as ih =>
    cases s with
    | nil =>
      constructor
      · intro h
        exact absurd h (by simp [lstarts])
      · rintro ⟨r, h⟩
        simp at h
    | cons b bs =>
      simp only [lstarts, Bool.and_eq_true, decide_eq_true_eq, ih, List.cons_append,
        List.cons.injEq]
      constructor
      · rintro ⟨h1, r, h2⟩
        exact ⟨r, h1.symm, h2⟩
      · rintro ⟨r, h1, h2⟩
        exact ⟨h1.symm, r, h2⟩

theorem lstarts_self_append (p r : Line) : lstarts p (p ++ r) = true := by
  rw [lstarts_iff]
  exact ⟨r, rfl⟩

theorem lstarts_concat (p s : Line) (c : Char) :
    lstarts p (s ++ [c]) = true ↔ lstarts p s = true ∨ p = s ++ [c] := by
  rw [lstarts_iff, lstarts_iff]
  constructor
  · rintro ⟨r, hr⟩
    rcases List.eq_nil_or_concat r with h | ⟨r2, e, h⟩
    · subst h
      right
      simpa using hr.symm
    · subst h
      left
      rw [List.concat_eq_append, ← List.append_assoc] at hr
      obtain ⟨h1, h2⟩ := List.append_inj' hr rfl
      exact ⟨r2, h1⟩
  · rintro (⟨r, hr⟩ | hp)
    · exact ⟨r ++ [c], by rw [hr, List.append_assoc]⟩
    · exact ⟨[], by rw [hp, List.append_nil]⟩

theorem lstarts_ensureNL (p ln : Line) (hp : p.getLast? = some ',') :
    lstarts p (ensureNL ln) = lstarts p ln := by
  unfold ensureNL
  split
  · rfl
  · rw [Bool.eq_iff_iff, lstarts_concat]
    constructor
    · rintro (h | h)
      · exact h
      · rw [h, List.getLast?_concat] at hp
        simp at hp
    · exact Or.inl

theorem lineIsToday_ensureNL (d : Line) (ln : Line) :
    lineIsToday d (ensureNL ln) = lineIsToday d ln :=
  lstarts_ensureNL (todayTag d) ln (List.getLast?_concat d)

theorem lineIsHeader_ensureNL (ln : Line) :
    lineIsHeader (ensureNL ln) = lineIsHeader ln :=
  lstarts_ensureNL headerTag ln (by rfl)

theorem getLast?_append_right (x y : Line) (c : Char) (hy : y.getLast? = some c) :
    (x ++ y).getLast? = some c := by
  rw [List.getLast?_append, hy]
  rfl

theorem srcSuffix_last : srcSuffix.getLast? = some '\n' := by rfl

theorem mkTodayLine_last (d : Line) (t δ : Int) :
    (mkTodayLine d t δ).getLast? = some '\n' := by
  unfold mkTodayLine
  exact getLast?_append_right _ _ _ srcSuffix_last

theorem ensureNL_mkTodayLine (d : Line) (t δ : Int) :
    ensureNL (mkTodayLine d t δ) = mkTodayLine d t δ := by
  unfold ensureNL
  rw [mkTodayLine_last]
  simp

theorem ensureNL_headerLine : ensureNL headerLine = headerLine := by decide

theorem lineIsToday_mkTodayLine (d : Line) (t δ : Int) :
    lineIsToday d (mkTodayLine d t δ) = true := by
  unfold lineIsToday todayTag mkTodayLine
  rw [lstarts_iff]
  refine ⟨intToDec t ++ [','] ++ intToDec δ ++ srcSuffix, ?_⟩
  simp [List.append_assoc]

theorem mkTodayLine_not_blank (d : Line) (t δ : Int) :
    isBlankL (mkTodayLine d t δ) = false := by
  unfold isBlankL mkTodayLine
  simp [List.all_append, pyIsSpace, wsChars]

theorem headerLine_not_blank : isBlankL headerLine = false := by decide

theorem headerLine_is_header : lineIsHeader headerLine = true := by decide

theorem isBlankL_ensureNL (ln : Line) : isBlankL (ensureNL ln) = isBlankL ln := by
  unfold ensureNL
  split
  · rfl
  · unfold isBlankL
    rw [List.all_append]
    have h : [('\n' : Char)].all pyIsSpace = true := by decide
    rw [h, Bool.and_true]

theorem replFirst_none (p : Line → Bool) (new : Line) (l : List Line)
    (h : replFirst p new l = Option.none) : ∀ x ∈ l, p x = false := by
  induction l with
  | nil =>
    intro x hx
    cases hx
  | cons a l ih =>
    unfold replFirst at h
    by_cases hp : p a = true
    · rw [if_pos hp] at h
      cases h
    · rw [if_neg hp] at h
      intro x hx
      rcases List.mem_cons.mp hx with rfl | hx2
      · simpa using hp
      · exact ih (Option.map_eq_none'.mp h) x hx2

theorem replFirst_some (p : Line → Bool) (new : Line) (l l2 : List Line)
    (h : replFirst p new l = some l2) :
    ∃ u x v, l = u ++ x :: v ∧ l2 = u ++ new :: v ∧ p x = true ∧ ∀ y ∈ u, p y = false := by
  induction l generalizing l2 with
  | nil => cases h
  | cons a l ih =>
    unfold replFirst at h
    by_cases hp : p a = true
    · rw [if_pos hp] at h
      injection h with h
      refine ⟨[], a, l, rfl, by rw [← h]; rfl, hp, ?_⟩
      intro y hy
      cases hy
    · rw [if_neg hp] at h
      cases hr : replFirst p new l with
      | none =>
        rw [hr] at h
        cases h
      | some l3 =>
        rw [hr, Option.map_some'] at h
        injection h with h
        obtain ⟨u, x, v, h1, h2, h3, h4⟩ := ih l3 hr
        refine ⟨a :: u, x, v, by rw [h1]; rfl, by rw [← h, h2]; rfl, h3, ?_⟩
        intro y hy
        rcases List.mem_cons.mp hy with rfl | hy2
        · simpa using hp
        · exact h4 y hy2

theorem filter_replFirst (p : Line → Bool) (new : Line) (l l2 : List Line)
    (hnew : p new = true)
    (hc : (l.filter p).length ≤ 1)
    (h : replFirst p new l = some l2) :
    l2.filter p = [new] := by
  obtain ⟨u, x, v, h1, h2, h3, h4⟩ := replFirst_some p new l l2 h
  have hu : u.filter p = [] := List.filter_eq_nil_iff.mpr (by
    intro a ha
    simp [h4 a ha])
  have hv : v.filter p = [] := by
    rw [h1, List.filter_append, hu, List.filter_cons, if_pos h3] at hc
    simp only [List.nil_append, List.length_cons] at hc
    rw [← List.length_eq_zero]
    omega
  rw [h2, List.filter_append, hu, List.filter_cons, if_pos hnew, hv]
  rfl

theorem filter_nonp_replFirst (p : Line → Bool) (new : Line) (l l2 : List Line)
    (hnew : p new = true)
    (h : replFirst p new l = some l2) :
    l2.filter (fun x => !(p x)) = l.filter (fun x => !(p x)) := by
  obtain ⟨u, x, v, h1, h2, h3, h4⟩ := replFirst_some p new l l2 h
  rw [h1, h2, List.filter_append, List.filter_append, List.filter_cons, List.filter_cons]
  rw [if_neg (by rw [hnew]; simp), if_neg (by rw [h3]; simp)]

theorem filter_today_upsertLines2 (lines : List Line) (d : Line) (tl : Line)
    (htl : lineIsToday d tl = true)
    (hc : (lines.filter (lineIsToday d)).length ≤ 1) :
    (upsertLines2 lines d tl).filter (lineIsToday d) = [tl] := by
  unfold upsertLines2
  cases hr : replFirst (lineIsToday d) tl lines.reverse with
  | none =>
    have hall := replFirst_none _ _ _ hr
    have hnil : lines.filter (lineIsToday d) = [] := List.filter_eq_nil_iff.mpr (by
      intro a ha
      simp [hall a (List.mem_reverse.mpr ha)])
    rw [List.filter_append, hnil, List.filter_cons, if_pos htl]
    rfl
  | some l2 =>
    have hrev : (lines.reverse.filter (lineIsToday d)).length ≤ 1 := by
      rw [List.filter_reverse, List.length_reverse]
      exact hc
    have hf := filter_replFirst _ _ _ _ htl hrev hr
    rw [List.filter_reverse, hf]
    rfl

theorem filter_nontoday_upsertLines2 (lines : List Line) (d : Line) (tl : Line)
    (htl : lineIsToday d tl = true) :
    (upsertLines2 lines d tl).filter (fun x => !(lineIsToday d x)) =
      lines.filter (fun x => !(lineIsToday d x)) := by
  unfold upsertLines2
  cases hr : replFirst (lineIsToday d) tl lines.reverse with
  | none =>
    rw [List.filter_append, List.filter_cons, if_neg (by rw [htl]; simp)]
    simp
  | some l2 =>
    have hf := filter_nonp_replFirst _ _ _ _ htl hr
    rw [List.filter_reverse, hf, List.filter_reverse, List.reverse_reverse]

theorem filter_upsertWrite (l2 : List Line) (q : Line → Bool)
    (hq : ∀ x, q (ensureNL x) = q x) :
    (upsertWrite l2).filter q =
      ((if lineIsHeader (l2.headD []) then l2 else headerLine :: l2).filter q).map ensureNL := by
  unfold upsertWrite
  rw [List.filter_map]
  congr 1
  apply List.filter_congr
  intro x _
  exact hq x

theorem upsert_filter_today (file : Option (List Line)) (d : Line) (total : Int)
    (hd : lineIsToday d headerLine = false)
    (hc : ((linesOf file).filter (lineIsToday d)).length ≤ 1) :
    (upsertToday file d total).filter (lineIsToday d) =
      [mkTodayLine d total (upsertDeltaOf file d total)] := by
  unfold upsertToday
  by_cases he : (linesOf file).isEmpty = true
  · rw [if_pos he]
    rw [List.filter_cons, if_neg (by rw [hd]; simp), List.filter_cons,
      if_pos (lineIsToday_mkTodayLine d _ _)]
    rfl
  · rw [if_neg he]
    rw [filter_upsertWrite _ _ (lineIsToday_ensureNL d)]
    split
    · rw [filter_today_upsertLines2 _ _ _ (lineIsToday_mkTodayLine d _ _) hc]
      rw [List.map_cons, ensureNL_mkTodayLine]
      rfl
    · rw [List.filter_cons, if_neg (by rw [hd]; simp)]
      rw [filter_today_upsertLines2 _ _ _ (lineIsToday_mkTodayLine d _ _) hc]
      rw [List.map_cons, ensureNL_mkTodayLine]
      rfl

theorem upsert_filter_nontoday (file : Option (List Line)) (d : Line) (total : Int)
    (hd : lineIsToday d headerLine = false) :
    ∃ h : List Line, (h = [] ∨ h = [headerLine]) ∧
      (upsertToday file d total).filter (fun x => !(lineIsToday d x)) =
        h ++ ((linesOf file).filter (fun x => !(lineIsToday d x))).map ensureNL := by
  unfold upsertToday
  by_cases he : (linesOf file).isEmpty = true
  · rw [if_pos he]
    refine ⟨[headerLine], Or.inr rfl, ?_⟩
    rw [List.isEmpty_eq_true] at he
    rw [he]
    rw [List.filter_cons, if_pos (by rw [hd]; simp), List.filter_cons,
      if_neg (by rw [lineIsToday_mkTodayLine d]; simp)]
    rfl
  · rw [if_neg he]
    rw [filter_upsertWrite _ _ (fun x => by rw [lineIsToday_ensureNL d x])]
    split
    · refine ⟨[], Or.inl rfl, ?_⟩
      rw [filter_nontoday_upsertLines2 _ _ _ (lineIsToday_mkTodayLine d _ _)]
      rfl
    · refine ⟨[headerLine], Or.inr rfl, ?_⟩
      rw [List.filter_cons, if_pos (by rw [hd]; simp)]
      rw [filter_nontoday_upsertLines2 _ _ _ (lineIsToday_mkTodayLine d _ _)]
      rw [List.map_cons, ensureNL_headerLine]
      rfl

theorem pyStrip_concat_ws (y : Line) (c : Char) (hc : pyIsSpace c = true) :
    pyStrip (y ++ [c]) = pyStrip y := by
  unfold pyStrip
  rw [List.dropWhile_append]
  by_cases h : (y.dropWhile pyIsSpace).isEmpty = true
  · rw [if_pos h]
    rw [List.isEmpty_eq_true] at h
    rw [h]
    have h2 : List.dropWhile pyIsSpace [c] = [] := by
      rw [List.dropWhile_cons, if_pos hc]
      rfl
    rw [h2]
  · rw [if_neg h]
    rw [show (List.dropWhile pyIsSpace y ++ [c]).reverse =
      c :: (List.dropWhile pyIsSpace y).reverse from by simp]
    rw [List.dropWhile_cons, if_pos hc]

theorem pyIntParse_concat_nl (y : Line) : pyIntParse (y ++ ['\n']) = pyIntParse y := by
  unfold pyIntParse
  rw [pyStrip_concat_ws y '\n' (by decide)]

theorem pyIntParse_takeWhile_nl (l : Line) :
    pyIntParse ((l ++ ['\n']).takeWhile (fun c => c ≠ ',')) =
      pyIntParse (l.takeWhile (fun c => c ≠ ',')) := by
  rw [List.takeWhile_append]
  by_cases h : (l.takeWhile (fun c => c ≠ ',')).length = l.length
  · rw [if_pos h]
    have h2 : l.takeWhile (fun c => (c ≠ ',' : Bool)) = l :=
      List.Sublist.eq_of_length (List.takeWhile_sublist _) h
    rw [h2]
    have h3 : ['\n'].takeWhile (fun c => (c ≠ ',' : Bool)) = ['\n'] := by decide
    rw [h3]
    exact pyIntParse_concat_nl l
  · rw [if_neg h]

theorem parseField1_concat_nl (ln : Line) :
    parseField1 (ln ++ ['\n']) = parseField1 ln := by
  unfold parseField1
  rw [List.dropWhile_append]
  by_cases h : (ln.dropWhile (fun c => c ≠ ',')).isEmpty = true
  · rw [if_pos h]
    rw [List.isEmpty_eq_true] at h
    rw [h]
    rfl
  · rw [if_neg h]
    have h2 : ln.dropWhile (fun c => (c ≠ ',' : Bool)) ≠ [] := by
      intro hh
      rw [hh] at h
      exact h rfl
    obtain ⟨a, rest, he⟩ := List.exists_cons_of_ne_nil h2
    rw [he]
    show pyIntParse ((rest ++ ['\n']).takeWhile (fun c => c ≠ ',')) =
      pyIntParse (rest.takeWhile (fun c => c ≠ ','))
    exact pyIntParse_takeWhile_nl rest

theorem parseField1_ensureNL (ln : Line) : parseField1 (ensureNL ln) = parseField1 ln := by
  unfold ensureNL
  split
  · rfl
  · exact parseField1_concat_nl ln

theorem prevScanAux_cons_skip (d ln : Line) (rest : List Line)
    (h : lineIsHeader ln = true ∨ lineIsToday d ln = true) :
    prevScanAux d (ln :: rest) = prevScanAux d rest := by
  simp only [prevScanAux]
  rw [if_pos h]

theorem prevScanAux_append (d : Line) (xs ys : List Line) :
    prevScanAux d (xs ++ ys) = (prevScanAux d xs).or (prevScanAux d ys) := by
  induction xs with
  | nil => rfl
  | cons ln xs ih =>
    simp only [List.cons_append, prevScanAux, List.append_eq]
    by_cases h : lineIsHeader ln = true ∨ lineIsToday d ln = true
    · rw [if_pos h, if_pos h, ih]
    · rw [if_neg h, if_neg h]
      cases hp : parseField1 ln with
      | none =>
        simp only [hp]
        exact ih
      | some v => simp only [hp]; rfl

theorem prevScanAux_map_ensureNL (d : Line) (l : List Line) :
    prevScanAux d (l.map ensureNL) = prevScanAux d l := by
  induction l with
  | nil => rfl
  | cons ln rest ih =>
    simp only [List.map_cons, prevScanAux, lineIsHeader_ensureNL, lineIsToday_ensureNL,
      parseField1_ensureNL, ih]

theorem mem_upsertLines2 (lines : List Line) (d : Line) (tl x : Line)
    (hx : x ∈ upsertLines2 lines d tl) : x = tl ∨ x ∈ lines := by
  unfold upsertLines2 at hx
  revert hx
  cases hr : replFirst (lineIsToday d) tl lines.reverse with
  | none =>
    intro hx
    rcases List.mem_append.mp hx with h | h
    · exact Or.inr h
    · left
      simpa using h
  | some l2 =>
    intro hx
    have hx2 : x ∈ l2 := List.mem_reverse.mp hx
    obtain ⟨u, y, v, h1, h2, h3, h4⟩ := replFirst_some _ _ _ _ hr
    rw [h2] at hx2
    rcases List.mem_append.mp hx2 with h | h
    · right
      rw [← List.mem_reverse, h1]
      exact List.mem_append.mpr (Or.inl h)
    · rcases List.mem_cons.mp h with rfl | h5
      · exact Or.inl rfl
      · right
        rw [← List.mem_reverse, h1]
        exact List.mem_append.mpr (Or.inr (List.mem_cons.mpr (Or.inr h5)))

theorem linesOf_not_blank (file : Option (List Line)) (x : Line) (hx : x ∈ linesOf file) :
    isBlankL x = false := by
  unfold linesOf at hx
  cases file with
  | none => cases hx
  | some c =>
    have h := (List.mem_filter.mp hx).2
    simpa using h

theorem upsert_not_blank (file : Option (List Line)) (d : Line) (total : Int)
    (x : Line) (hx : x ∈ upsertToday file d total) : isBlankL x = false := by
  unfold upsertToday at hx
  by_cases he : (linesOf file).isEmpty = true
  · rw [if_pos he] at hx
    rcases List.mem_cons.mp hx with rfl | hx2
    · exact headerLine_not_blank
    · rcases List.mem_cons.mp hx2 with rfl | hx3
      · exact mkTodayLine_not_blank d _ _
      · cases hx3
  · rw [if_neg he] at hx
    unfold upsertWrite at hx
    rw [List.mem_map] at hx
    obtain ⟨y, hy, rfl⟩ := hx
    rw [isBlankL_ensureNL]
    revert hy
    split
    · intro hy
      rcases mem_upsertLines2 _ _ _ _ hy with rfl | h2
      · exact mkTodayLine_not_blank d _ _
      · exact linesOf_not_blank file y h2
    · intro hy
      rcases List.mem_cons.mp hy with rfl | h2
      · exact headerLine_not_blank
      · rcases mem_upsertLines2 _ _ _ _ h2 with rfl | h3
        · exact mkTodayLine_not_blank d _ _
        · exact linesOf_not_blank file y h3

theorem linesOf_upsert (file : Option (List Line)) (d : Line) (total : Int) :
    linesOf (some (upsertToday file d total)) = upsertToday file d total := by
  unfold linesOf
  apply List.filter_eq_self.mpr
  intro a ha
  rw [upsert_not_blank file d total a ha]
  rfl

theorem prevScan_upsertLines2 (lines : List Line) (d : Line) (tl : Line)
    (htl : lineIsToday d tl = true) :
    prevScanAux d (upsertLines2 lines d tl).reverse = prevScanAux d lines.reverse := by
  unfold upsertLines2
  cases hr : replFirst (lineIsToday d) tl lines.reverse with
  | none =>
    show prevScanAux d (lines ++ [tl]).reverse = prevScanAux d lines.reverse
    rw [List.reverse_append]
    simp only [List.reverse_cons, List.reverse_nil, List.nil_append, List.singleton_append]
    exact prevScanAux_cons_skip _ _ _ (Or.inr htl)
  | some l2 =>
    show prevScanAux d l2.reverse.reverse = prevScanAux d lines.reverse
    rw [List.reverse_reverse]
    obtain ⟨u, x, v, h1, h2, h3, h4⟩ := replFirst_some _ _ _ _ hr
    rw [h1, h2]
    rw [prevScanAux_append, prevScanAux_append]
    congr 1
    rw [prevScanAux_cons_skip _ _ _ (Or.inr htl), prevScanAux_cons_skip _ _ _ (Or.inr h3)]

theorem scanPrev_upsert (file : Option (List Line)) (d : Line) (total : Int)
    (hd : lineIsToday d headerLine = false) :
    scanPrevTotal d (upsertToday file d total) = scanPrevTotal d (linesOf file) := by
  unfold upsertToday
  by_cases he : (linesOf file).isEmpty = true
  · rw [if_pos he]
    rw [List.isEmpty_eq_true] at he
    rw [he]
    unfold scanPrevTotal
    show prevScanAux d [mkTodayLine d total (upsertDeltaOf file d total), headerLine] =
      prevScanAux d []
    rw [prevScanAux_cons_skip _ _ _ (Or.inr (lineIsToday_mkTodayLine d _ _)),
      prevScanAux_cons_skip _ _ _ (Or.inl headerLine_is_header)]
  · rw [if_neg he]
    unfold scanPrevTotal upsertWrite
    rw [← List.map_reverse, prevScanAux_map_ensureNL]
    split
    · exact prevScan_upsertLines2 _ _ _ (lineIsToday_mkTodayLine d _ _)
    · rw [List.reverse_cons, prevScanAux_append]
      have hh : prevScanAux d [headerLine] = Option.none := by
        rw [prevScanAux_cons_skip _ _ _ (Or.inl headerLine_is_header)]
        rfl
      rw [hh, Option.or_none]
      exact prevScan_upsertLines2 _ _ _ (lineIsToday_mkTodayLine d _ _)

theorem upsertDelta_rerun (file : Option (List Line)) (d : Line) (t t2 : Int)
    (hd : lineIsToday d headerLine = false) :
    upsertDeltaOf (some (upsertToday file d t)) d t2 = upsertDeltaOf file d t2 := by
  unfold upsertDeltaOf
  rw [linesOf_upsert, scanPrev_upsert file d t hd]

theorem count_today_upsert (file : Option (List Line)) (d : Line) (total : Int)
    (hd : lineIsToday d headerLine = false)
    (hc : ((linesOf file).filter (lineIsToday d)).length ≤ 1) :
    ((linesOf (some (upsertToday file d total))).filter (lineIsToday d)).length ≤ 1 := by
  rw [linesOf_upsert, upsert_filter_today file d total hd hc]
  simp

theorem runUpserts_filter_today (file : Option (List Line)) (d : Line) (t : Int) (ts : List Int)
    (hd : lineIsToday d headerLine = false)
    (hc : ((linesOf file).filter (lineIsToday d)).length ≤ 1) :
    ∃ δ : Int, (runUpserts file d t ts).filter (lineIsToday d) =
      [mkTodayLine d (ts.getLastD t) δ] := by
  induction ts generalizing file t with
  | nil => exact ⟨_, upsert_filter_today file d t hd hc⟩
  | cons t2 ts ih =>
    have h2 := count_today_upsert file d t hd hc
    have h3 := ih (some (upsertToday file d t)) t2 h2
    rw [show runUpserts file d t (t2 :: ts) =
      runUpserts (some (upsertToday file d t)) d t2 ts from rfl]
    rw [List.getLastD_cons]
    exact h3

/-! ## C1: upsert idempotence per date -/

/-- C1: starting from any file state with at most one row for the date `d`
(where `d` does not make the header line look like a data row, as for any
calendar date), running the upsert N ≥ 1 times leaves exactly one line
whose date field is `d`, carrying the Nth run's total; and re-running with
the same total leaves that single today-row (hence its `daily_delta`)
unchanged. -/
theorem c1_upsert_idempotent (file : Option (List Line)) (d : Line) (t : Int) (ts : List Int)
    (hd : lineIsToday d headerLine = false)
    (hc : todayCountOpt d file ≤ 1) :
    (∃ δ : Int, (runUpserts file d t ts).filter (lineIsToday d) =
        [mkTodayLine d (ts.getLastD t) δ]) ∧
    (upsertToday (some (upsertToday file d t)) d t).filter (lineIsToday d) =
      (upsertToday file d t).filter (lineIsToday d) := by
  have hc2 : ((linesOf file).filter (lineIsToday d)).length ≤ 1 := by
    cases file with
    | none => simp [linesOf]
    | some c =>
      calc ((linesOf (some c)).filter (lineIsToday d)).length
          ≤ (c.filter (lineIsToday d)).length :=
            List.Sublist.length_le (List.Sublist.filter _ (List.filter_sublist c))
        _ ≤ 1 := hc
  constructor
  · exact runUpserts_filter_today file d t ts hd hc2
  · rw [upsert_filter_today (some (upsertToday file d t)) d t hd
      (count_today_upsert file d t hd hc2),
      upsert_filter_today file d t hd hc2,
      upsertDelta_rerun file d t t hd]

/-- Witness for C1 on an absent file and two runs. -/
theorem c1_upsert_idempotent_witness :
    (∃ δ : Int, (runUpserts Option.none "2024-01-05".toList 100 [150]).filter
        (lineIsToday "2024-01-05".toList) =
      [mkTodayLine "2024-01-05".toList (([150] : List Int).getLastD 100) δ]) ∧
    (upsertToday (some (upsertToday Option.none "2024-01-05".toList 100))
        "2024-01-05".toList 100).filter (lineIsToday "2024-01-05".toList) =
      (upsertToday Option.none "2024-01-05".toList 100).filter
        (lineIsToday "2024-01-05".toList) :=
  c1_upsert_idempotent Option.none "2024-01-05".toList 100 [150] (by decide) (by decide)

/-! ## C10: the rewrite's frame -/

/-- C10: rewriting an existing totals file for date `d` preserves every
non-today line, in order; the only line-level changes are the today-row
replacement or append (absent from the non-today filter), blank-line
removal, per-line trailing-newline normalization, and an optional header
prepend. -/
theorem c10_upsert_frame (c : List Line) (d : Line) (total : Int)
    (hd : lineIsToday d headerLine = false) :
    ∃ h : List Line, (h = [] ∨ h = [headerLine]) ∧
      (upsertToday (some c) d total).filter (fun x => !(lineIsToday d x)) =
        h ++ ((linesOf (some c)).filter (fun x => !(lineIsToday d x))).map ensureNL :=
  upsert_filter_nontoday (some c) d total hd

/-- Witness for C10 on a file with one older row and one blank line. -/
theorem c10_upsert_frame_witness :
    ∃ h : List Line, (h = [] ∨ h = [headerLine]) ∧
      (upsertToday (some ["2024-01-04,90,0,src\n".toList, "".toList])
          "2024-01-05".toList 100).filter
        (fun x => !(lineIsToday "2024-01-05".toList x)) =
      h ++ ((linesOf (some ["2024-01-04,90,0,src\n".toList, "".toList])).filter
        (fun x => !(lineIsToday "2024-01-05".toList x))).map ensureNL :=
  c10_upsert_frame ["2024-01-04,90,0,src\n".toList, "".toList] "2024-01-05".toList 100
    (by decide)

/-! ## C3: the daily delta against the previous total -/

/-- C3 counterexample: with the record physically out of date order, the
scan takes the last physical parseable row (total 50, dated 2024-01-01),
not the most recent earlier date (2024-01-03 with total 100): the written
delta is 150, but the claim demands 200 − 100 = 100. -/
theorem c3_counterexample :
    upsertDeltaOf (some [headerLine, "2024-01-03,100,50,src\n".toList,
      "2024-01-01,50,0,src\n".toList]) "2024-01-05".toList 200 = 150 ∧
    specPrevTotal ["2024-01-03,100,50,src\n".toList, "2024-01-01,50,0,src\n".toList]
      "2024-01-05".toList = some 100 ∧
    (150 : Int) ≠ 200 - 100 := by
  refine ⟨by decide, by decide, by decide⟩

theorem prevScanAux_head_parse (d : Line) (l : List Line)
    (hall : ∀ ln ∈ l, lineIsHeader ln = false ∧ lineIsToday d ln = false ∧
      (parseField1 ln).isSome = true) :
    prevScanAux d l =
      (match l.head? with
       | Option.none => Option.none
       | some ln => parseField1 ln) := by
  cases l with
  | nil => rfl
  | cons ln rest =>
    obtain ⟨h1, h2, h3⟩ := hall ln (List.mem_cons_self _ _)
    simp only [prevScanAux, List.head?_cons]
    rw [if_neg (by rw [h1, h2]; simp)]
    obtain ⟨v, hv⟩ := Option.isSome_iff_exists.mp h3
    rw [hv]

theorem pickMax_sorted (d : Line) (c : Line) (cs : List Line)
    (h : List.Chain' (fun a b => lexLt (dateOfLine a) (dateOfLine b) = true) (c :: cs)) :
    cs.foldl (fun acc ln => if lexLt (dateOfLine acc) (dateOfLine ln) then ln else acc) c =
      cs.getLastD c := by
  induction cs generalizing c with
  | nil => rfl
  | cons c2 cs ih =>
    have h1 : lexLt (dateOfLine c) (dateOfLine c2) = true := (List.chain'_cons.mp h).1
    simp only [List.foldl_cons]
    rw [if_pos h1]
    rw [ih c2 (List.chain'_cons.mp h).2]
    rw [List.getLastD_cons]

/-- C3 amended: on a well-formed record — a header line followed by
parseable data rows in strictly increasing date order, all dated before
the run's date — the written `dailyDelta` equals `total` minus the
`total_plays` of the most recent earlier date present, or 0 when no
earlier date exists.  On records whose rows are out of date order the
code instead uses the physically last parseable non-today row (see the
counterexample). -/
theorem c3_delta_amended (rows : List Line) (d : Line) (total : Int)
    (hall : ∀ ln ∈ rows, (parseField1 ln).isSome = true ∧ lineIsHeader ln = false ∧
      lineIsToday d ln = false ∧ lexLt (dateOfLine ln) d = true ∧ isBlankL ln = false)
    (hsorted : List.Chain' (fun a b => lexLt (dateOfLine a) (dateOfLine b) = true) rows) :
    upsertDeltaOf (some (headerLine :: rows)) d total =
      (match specPrevTotal rows d with
       | Option.none => 0
       | some p => total - p) := by
  have hlines : linesOf (some (headerLine :: rows)) = headerLine :: rows := by
    unfold linesOf
    apply List.filter_eq_self.mpr
    intro a ha
    rcases List.mem_cons.mp ha with rfl | h2
    · rw [headerLine_not_blank]
      rfl
    · rw [(hall a h2).2.2.2.2]
      rfl
  unfold upsertDeltaOf
  rw [hlines]
  unfold scanPrevTotal
  rw [List.reverse_cons, prevScanAux_append]
  have hh : prevScanAux d [headerLine] = Option.none := by
    rw [prevScanAux_cons_skip _ _ _ (Or.inl headerLine_is_header)]
    rfl
  rw [hh, Option.or_none]
  have hscan : prevScanAux d rows.reverse =
      (match rows.getLast? with
       | Option.none => Option.none
       | some ln => parseField1 ln) := by
    rw [← List.head?_reverse]
    apply prevScanAux_head_parse
    intro ln hln
    have h3 := hall ln (List.mem_reverse.mp hln)
    exact ⟨h3.2.1, h3.2.2.1, h3.1⟩
  rw [hscan]
  have hcand : rows.filter
      (fun ln => lexLt (dateOfLine ln) d && !((parseField1 ln).isNone)) = rows := by
    apply List.filter_eq_self.mpr
    intro a ha
    obtain ⟨hs, _, _, hlt, _⟩ := hall a ha
    obtain ⟨v, hv⟩ := Option.isSome_iff_exists.mp hs
    rw [Bool.and_eq_true, hlt, hv]
    exact ⟨rfl, rfl⟩
  cases rows with
  | nil => rfl
  | cons c cs =>
    have hspec : specPrevTotal (c :: cs) d = parseField1 (cs.getLast?.getD c) := by
      unfold specPrevTotal
      rw [hcand]
      show parseField1 (cs.foldl
        (fun acc ln => if lexLt (dateOfLine acc) (dateOfLine ln) then ln else acc) c) =
        parseField1 (cs.getLast?.getD c)
      rw [pickMax_sorted d c cs hsorted, List.getLastD_eq_getLast?]
    rw [List.getLast?_cons, hspec]

/-- Witness for the amended C3 theorem on a sorted two-row record. -/
theorem c3_delta_amended_witness :
    upsertDeltaOf (some (headerLine :: ["2024-01-01,50,0,s\n".toList,
      "2024-01-03,100,50,s\n".toList])) "2024-01-05".toList 200 =
      (match specPrevTotal ["2024-01-01,50,0,s\n".toList,
        "2024-01-03,100,50,s\n".toList] "2024-01-05".toList with
       | Option.none => 0
       | some p => 200 - p) :=
  c3_delta_amended ["2024-01-01,50,0,s\n".toList, "2024-01-03,100,50,s\n".toList]
    "2024-01-05".toList 200 (by decide)
    (List.chain'_cons.mpr ⟨by decide, List.chain'_singleton _⟩)

/-! ## C6: dropped rows in the Row Extractor -/

/-- C6 counterexample: a row whose title cell is the empty string (with a
parseable plays cell) is NOT dropped — `dropna` only drops null cells, and
scraped cells are always strings — so the extracted set keeps a record
with an empty title, contradicting the claim that empty-title rows are
dropped. -/
theorem c6_counterexample :
    table_to_dataframe
      ⟨["Track".toList, "Plays".toList, "Duration".toList, "Release Date".toList],
       [[⟨[], Option.none⟩, ⟨"5".toList, Option.none⟩, ⟨"1:00".toList, Option.none⟩,
         ⟨"2020".toList, Option.none⟩]]⟩ =
      some ⟨[nTitle, nPlays, nDuration, nRelease, nCover],
            [[Val.str [], Val.int 5, Val.str "1:00".toList, Val.str "2020".toList, Val.null]]⟩ ∧
    ([[Val.str [], Val.int 5, Val.str "1:00".toList, Val.str "2020".toList, Val.null]] :
      List (List Val)) ≠ [] := by
  refine ⟨by decide, by decide⟩

theorem parse_human_int_nonneg (s : Line) (n : Int) (h : parse_human_int s = some n) :
    0 ≤ n := by
  dsimp only [parse_human_int] at h
  split at h
  · injection h with h
    rw [← h]
    exact Int.natCast_nonneg _
  · cases h

theorem applyParse_non_null (v : Val) (h : applyParse v ≠ Val.null) :
    ∃ n : Int, 0 ≤ n ∧ applyParse v = Val.int n := by
  cases v with
  | null => exact absurd rfl h
  | str s =>
    simp only [applyParse] at h ⊢
    cases hp : parse_human_int s with
    | none =>
      rw [hp] at h
      exact absurd rfl h
    | some n =>
      refine ⟨n, parse_human_int_nonneg s n hp, ?_⟩
      simp only [hp]
  | int m =>
    simp only [applyParse] at h ⊢
    by_cases hm : (0 : Int) ≤ m
    · rw [if_pos hm]
      exact ⟨m, hm, rfl⟩
    · rw [if_neg hm] at h
      exact absurd rfl h

/-- C6 amended: every row with an unparseable (or null) plays cell is
dropped, so every extracted record has a non-negative integer plays value
and a non-null title; but a row whose title is the empty string is kept
(scraped title cells are strings, never null, and `dropna` only drops
nulls), so empty-title rows are not dropped. -/
theorem c6_extract_amended (t : Table) (df : DF) (h : table_to_dataframe t = some df) :
    ∀ row ∈ df.rows, (∃ n : Int, 0 ≤ n ∧ getVal df.cols row nPlays = Val.int n) ∧
      getVal df.cols row nTitle ≠ Val.null := by
  unfold table_to_dataframe at h
  cases hp : colIdx (renamedCols t) nPlays with
  | none =>
    rw [hp] at h
    cases h
  | some pi =>
    cases ht : colIdx (renamedCols t) nTitle with
    | none =>
      rw [hp, ht] at h
      cases h
    | some ti =>
      rw [hp, ht] at h
      injection h with h
      subst h
      intro row hrow
      rw [List.mem_filter] at hrow
      obtain ⟨hmem, hcond⟩ := hrow
      rw [Bool.and_eq_true] at hcond
      obtain ⟨hcond1, hcond2⟩ := hcond
      constructor
      · have hgv : getVal (renamedCols t) row nPlays = row.getD pi Val.null := by
          unfold getVal
          rw [hp]
        rw [hgv]
        rw [List.mem_map] at hmem
        obtain ⟨r0, hr0, rfl⟩ := hmem
        have hnn : (r0.set pi (applyParse (r0.getD pi Val.null))).getD pi Val.null ≠
            Val.null := by
          intro hq
          rw [hq] at hcond2
          simp [Val.isNull] at hcond2
        by_cases hlen : pi < r0.length
        · have he : (r0.set pi (applyParse (r0.getD pi Val.null))).getD pi Val.null =
              applyParse (r0.getD pi Val.null) := by
            rw [List.getD_eq_getElem?_getD, List.getElem?_set_self hlen]
            rfl
          rw [he] at hnn ⊢
          exact applyParse_non_null _ hnn
        · exfalso
          apply hnn
          rw [List.getD_eq_getElem?_getD, List.getElem?_set, if_pos rfl, if_neg hlen]
          rfl
      · have hgv : getVal (renamedCols t) row nTitle = row.getD ti Val.null := by
          unfold getVal
          rw [ht]
        rw [hgv]
        intro hq
        rw [hq] at hcond1
        simp [Val.isNull] at hcond1

/-- Witness for the amended C6 theorem on a one-row table. -/
theorem c6_extract_amended_witness :
    table_to_dataframe
        ⟨["Track".toList, "Plays".toList, "Duration".toList, "Release Date".toList],
         [[⟨"x".toList, Option.none⟩, ⟨"5".toList, Option.none⟩,
           ⟨"1:00".toList, Option.none⟩, ⟨"2020".toList, Option.none⟩]]⟩ =
      some ⟨[nTitle, nPlays, nDuration, nRelease, nCover],
        [[Val.str "x".toList, Val.int 5, Val.str "1:00".toList,
          Val.str "2020".toList, Val.null]]⟩ ∧
    ((∃ n : Int, 0 ≤ n ∧
        getVal [nTitle, nPlays, nDuration, nRelease, nCover]
          [Val.str "x".toList, Val.int 5, Val.str "1:00".toList,
            Val.str "2020".toList, Val.null] nPlays = Val.int n) ∧
      getVal [nTitle, nPlays, nDuration, nRelease, nCover]
        [Val.str "x".toList, Val.int 5, Val.str "1:00".toList,
          Val.str "2020".toList, Val.null] nTitle ≠ Val.null) :=
  ⟨by decide,
    c6_extract_amended
      ⟨["Track".toList, "Plays".toList, "Duration".toList, "Release Date".toList],
       [[⟨"x".toList, Option.none⟩, ⟨"5".toList, Option.none⟩,
         ⟨"1:00".toList, Option.none⟩, ⟨"2020".toList, Option.none⟩]]⟩
      ⟨[nTitle, nPlays, nDuration, nRelease, nCover],
       [[Val.str "x".toList, Val.int 5, Val.str "1:00".toList,
         Val.str "2020".toList, Val.null]]⟩
      (by decide) _ (List.mem_cons_self _ _)⟩

/-! ## C2: exclusion before totals and snapshots -/

theorem firstNonNull_cases (vs : List Val) :
    firstNonNull vs = Val.null ∨ firstNonNull vs ∈ vs := by
  unfold firstNonNull
  cases hf : vs.filter (fun v => !(v.isNull)) with
  | nil => exact Or.inl rfl
  | cons a l =>
    right
    have ha : a ∈ vs.filter (fun v => !(v.isNull)) := by
      rw [hf]
      exact List.mem_cons_self a l
    exact (List.mem_filter.mp ha).1

theorem insDesc_perm (r : Rec) (l : List Rec) : List.Perm (insDesc r l) (r :: l) := by
  induction l with
  | nil => exact List.Perm.refl _
  | cons x xs ih =>
    unfold insDesc
    split
    · exact List.Perm.refl _
    · exact List.Perm.trans (List.Perm.cons x ih) (List.Perm.swap r x xs)

theorem sortDesc_perm (rs : List Rec) : List.Perm (sortDesc rs) rs := by
  induction rs with
  | nil => exact List.Perm.refl _
  | cons r rs ih =>
    exact List.Perm.trans (insDesc_perm r (sortDesc rs)) (List.Perm.cons r ih)

theorem mem_sortDesc (rs : List Rec) (x : Rec) : x ∈ sortDesc rs ↔ x ∈ rs :=
  (sortDesc_perm rs).mem_iff

theorem dedupe_title_cases (rs : List Rec) (r : Rec) (h : r ∈ dedupe rs) :
    r.title = Val.null ∨ r.title ∈ rs.map Rec.title := by
  unfold dedupe at h
  rw [List.mem_map] at h
  obtain ⟨k, hk, rfl⟩ := h
  rcases firstNonNull_cases (((sortDesc rs).filter (fun r => keyOf r = k)).map Rec.title)
    with h | h
  · exact Or.inl h
  · right
    rw [List.mem_map] at h
    obtain ⟨x, hx, he⟩ := h
    rw [List.mem_map]
    exact ⟨x, (mem_sortDesc rs x).mp (List.mem_filter.mp hx).1, he⟩

theorem colIdx_some (cols : List Line) (n : Line) (i : Nat) (h : colIdx cols n = some i) :
    cols[i]? = some n := by
  induction cols generalizing i with
  | nil => cases h
  | cons c cs ih =>
    unfold colIdx at h
    by_cases hc : c = n
    · rw [if_pos hc] at h
      injection h with h
      rw [← h]
      simp [hc]
    · rw [if_neg hc] at h
      cases hj : colIdx cs n with
      | none =>
        rw [hj] at h
        cases h
      | some j =>
        rw [hj, Option.map_some'] at h
        injection h with h
        rw [← h]
        simpa using ih j hj

theorem colIdx_ne (cols : List Line) (a b : Line) (i j : Nat)
    (ha : colIdx cols a = some i) (hb : colIdx cols b = some j) (hab : a ≠ b) : i ≠ j := by
  intro he
  subst he
  have h1 := colIdx_some cols a i ha
  have h2 := colIdx_some cols b i hb
  rw [h1] at h2
  injection h2 with h2
  exact hab h2

theorem filter_filter_append_drop {α : Type} (A : List α) (x : α) (p q : α → Bool)
    (hq : q x = false) : ((A ++ [x]).filter p).filter q = (A.filter p).filter q := by
  rw [List.filter_append, List.filter_append]
  have h1 : (([x].filter p).filter q : List α) = [] := by
    rw [List.filter_cons]
    split
    · rw [List.filter_cons, if_neg (by simp [hq])]
      rfl
    · rfl
  rw [h1, List.append_nil]

set_option maxHeartbeats 2000000 in
/-- C2: for every run whose pipeline succeeds, the persisted total equals
the sum of plays over the deduplicated snapshot (after exclusion); no raw
or deduplicated snapshot row has a title matching an exclusion pattern;
and appending a row whose extracted title is excluded leaves the whole
pipeline output (both snapshots and the total) unchanged. -/
theorem c2_exclusion (t : Table) :
    (∀ P, pipeline t = some P →
      P.total = sumPlays P.deduped ∧
      (∀ row ∈ P.rawRows, shouldExcludeV (getVal P.cols row nTitle) = false) ∧
      (∀ r ∈ P.deduped, shouldExcludeV r.title = false)) ∧
    (∀ tr, (∀ cells, extractRowCells t.headers tr = some cells →
        shouldExcludeV (getVal (renamedCols t) cells nTitle) = true) →
      pipeline (addRow t tr) = pipeline t) := by
  constructor
  · intro P hP
    unfold pipeline at hP
    split at hP
    · cases hP
    · rename_i df heq
      split at hP
      · injection hP with hP
        subst hP
        refine ⟨rfl, ?_, ?_⟩
        · intro row hrow
          have h2 := (List.mem_filter.mp hrow).2
          simpa using h2
        · intro r hr
          rcases dedupe_title_cases _ r hr with h | h
          · rw [h]
            decide
          · rw [List.mem_map] at h
            obtain ⟨rc, hrc, hte⟩ := h
            rw [List.mem_map] at hrc
            obtain ⟨row, hrow, hrc2⟩ := hrc
            rw [← hte, ← hrc2]
            show shouldExcludeV (getVal df.cols row nTitle) = false
            have h2 := (List.mem_filter.mp hrow).2
            simpa using h2
      · cases hP
  · intro tr htr
    have hrc : renamedCols (addRow t tr) = renamedCols t := rfl
    have hrows : (addRow t tr).trs.filterMap (extractRowCells (addRow t tr).headers) =
        t.trs.filterMap (extractRowCells t.headers) ++
          (extractRowCells t.headers tr).toList := by
      show (t.trs ++ [tr]).filterMap (extractRowCells t.headers) = _
      rw [List.filterMap_append]
      cases hx : extractRowCells t.headers tr <;> simp [hx]
    unfold pipeline table_to_dataframe
    rw [hrc, hrows]
    cases hp : colIdx (renamedCols t) nPlays with
    | none => cases ht2 : colIdx (renamedCols t) nTitle <;> rfl
    | some pi =>
      cases ht2 : colIdx (renamedCols t) nTitle with
      | none => rfl
      | some ti =>
        cases hx : extractRowCells t.headers tr with
        | none => simp
        | some cells =>
          have hti : pi ≠ ti := colIdx_ne _ nPlays nTitle pi ti hp ht2 (by decide)
          have hgv : ∀ (r : List Val),
              getVal (renamedCols t) r nTitle = r.getD ti Val.null := by
            intro r
            unfold getVal
            rw [ht2]
          have hEX : (fun r => !(shouldExcludeV (getVal (renamedCols t) r nTitle)))
              (cells.set pi (applyParse (cells.getD pi Val.null))) = false := by
            show (!(shouldExcludeV (getVal (renamedCols t)
              (cells.set pi (applyParse (cells.getD pi Val.null))) nTitle))) = false
            have hpc : getVal (renamedCols t)
                (cells.set pi (applyParse (cells.getD pi Val.null))) nTitle =
                getVal (renamedCols t) cells nTitle := by
              rw [hgv, hgv,
                List.getD_eq_getElem?_getD (cells.set pi (applyParse (cells.getD pi Val.null))) ti,
                List.getD_eq_getElem?_getD cells ti, List.getElem?_set_ne hti]
            rw [hpc, htr cells hx]
            rfl
          simp only [Option.toList_some, List.map_append, List.map_cons, List.map_nil]
          rw [filter_filter_append_drop
            (List.map (fun r => r.set pi (applyParse (r.getD pi Val.null)))
              (List.filterMap (extractRowCells t.headers) t.trs))
            (cells.set pi (applyParse (cells.getD pi Val.null)))
            (fun r => !((r.getD ti Val.null).isNull) && !((r.getD pi Val.null).isNull))
            (fun r => !(shouldExcludeV (getVal (renamedCols t) r nTitle))) hEX]

/-- Witness for C2: appending an excluded "Mouri" row to a one-row table
leaves the pipeline output (snapshots and total) unchanged. -/
theorem c2_exclusion_witness :
    pipeline (addRow
      ⟨["Track".toList, "Plays".toList, "Duration".toList, "Release Date".toList],
       [[⟨"Kalimera".toList, Option.none⟩, ⟨"500".toList, Option.none⟩,
         ⟨"3:20".toList, Option.none⟩, ⟨"2000".toList, Option.none⟩]]⟩
      [⟨"Mouri".toList, Option.none⟩, ⟨"9999".toList, Option.none⟩,
       ⟨"2:10".toList, Option.none⟩, ⟨"2019".toList, Option.none⟩]) =
    pipeline ⟨["Track".toList, "Plays".toList, "Duration".toList, "Release Date".toList],
       [[⟨"Kalimera".toList, Option.none⟩, ⟨"500".toList, Option.none⟩,
         ⟨"3:20".toList, Option.none⟩, ⟨"2000".toList, Option.none⟩]]⟩ :=
  (c2_exclusion _).2 _ (by
    intro cells h
    injection h with h
    rw [← h]
    decide)

/-! ## C4 and C9: the dedupe step -/

theorem pipe_not_mem_decDigits (f m : Nat) : '|' ∉ decDigits f m := by
  induction f generalizing m with
  | zero => cases m <;> simp [decDigits]
  | succ f ih =>
    cases m with
    | zero => simp [decDigits]
    | succ m =>
      simp only [decDigits, List.mem_append, List.mem_singleton]
      rintro (h | h)
      · exact ih _ h
      · have hr : (m + 1) % 10 < 10 := Nat.mod_lt _ (by norm_num)
        generalize hg : (m + 1) % 10 = r at hr h
        interval_cases r <;> exact absurd h (by decide)

theorem pipe_not_mem_natToDec (n : Nat) : '|' ∉ natToDec n := by
  unfold natToDec
  split
  · simp
  · exact pipe_not_mem_decDigits n n

theorem pipe_not_mem_intToDec (i : Int) : '|' ∉ intToDec i := by
  unfold intToDec
  split
  · intro h
    rcases List.mem_cons.mp h with h | h
    · exact absurd h (by decide)
    · exact pipe_not_mem_natToDec _ h
  · exact pipe_not_mem_natToDec _

theorem pipe_not_mem_showOptInt (o : Option Int) : '|' ∉ showOptInt o := by
  cases o with
  | none => decide
  | some n => exact pipe_not_mem_intToDec n

theorem append_pipe_inj (n1 : Line) (n2 s1 s2 : Line) (h1 : '|' ∉ s1) (h2 : '|' ∉ s2)
    (he : n1 ++ '|' :: s1 = n2 ++ '|' :: s2) : n1 = n2 ∧ s1 = s2 := by
  induction n1 generalizing n2 with
  | nil =>
    cases n2 with
    | nil =>
      refine ⟨rfl, ?_⟩
      injection he
    | cons b bs =>
      exfalso
      injection he with he1 he2
      apply h1
      rw [he2]
      exact List.mem_append.mpr (Or.inr (List.mem_cons_self _ _))
  | cons a as ih =>
    cases n2 with
    | nil =>
      exfalso
      injection he with he1 he2
      apply h2
      rw [← he2]
      exact List.mem_append.mpr (Or.inr (List.mem_cons_self _ _))
    | cons b bs =>
      injection he with he1 he2
      obtain ⟨g1, g2⟩ := ih bs he2
      exact ⟨by rw [he1, g1], g2⟩

theorem make_dedupe_key_eq (t1 d1 t2 d2 : Val)
    (h : make_dedupe_key t1 d1 = make_dedupe_key t2 d2) :
    normVal t1 = normVal t2 ∧ showOptInt (durSecsV d1) = showOptInt (durSecsV d2) :=
  append_pipe_inj _ _ _ _ (pipe_not_mem_showOptInt _) (pipe_not_mem_showOptInt _) h

theorem firstNonNull_null (vs : List Val) (h : firstNonNull vs = Val.null)
    (v : Val) (hv : v ∈ vs) : v = Val.null := by
  unfold firstNonNull at h
  cases hf : vs.filter (fun v => !(v.isNull)) with
  | nil =>
    have h2 := List.filter_eq_nil_iff.mp hf v hv
    cases v with
    | null => rfl
    | str s => exact absurd (by simp [Val.isNull]) h2
    | int n => exact absurd (by simp [Val.isNull]) h2
  | cons a l =>
    rw [hf] at h
    have ha : a ∈ vs.filter (fun v => !(v.isNull)) := by
      rw [hf]
      exact List.mem_cons_self a l
    have h2 := (List.mem_filter.mp ha).2
    have h3 : a = Val.null := by simpa using h
    rw [h3] at h2
    simp [Val.isNull] at h2

theorem keyOf_aggGroup (g : List Rec) (k : Line) (hne : g ≠ [])
    (hall : ∀ r ∈ g, keyOf r = k) : keyOf (aggGroup g) = k := by
  obtain ⟨r0, g0, rfl⟩ := List.exists_cons_of_ne_nil hne
  have hr0 : keyOf r0 = k := hall r0 (List.mem_cons_self _ _)
  have htitle : normVal (firstNonNull ((r0 :: g0).map Rec.title)) = normVal r0.title := by
    rcases firstNonNull_cases ((r0 :: g0).map Rec.title) with h | h
    · rw [h, firstNonNull_null _ h r0.title (by simp)]
    · rw [List.mem_map] at h
      obtain ⟨r1, hr1, he⟩ := h
      rw [← he]
      exact (make_dedupe_key_eq _ _ _ _ ((hall r1 hr1).trans hr0.symm)).1
  have hdur : showOptInt (durSecsV (firstNonNull ((r0 :: g0).map Rec.duration))) =
      showOptInt (durSecsV r0.duration) := by
    rcases firstNonNull_cases ((r0 :: g0).map Rec.duration) with h | h
    · rw [h, firstNonNull_null _ h r0.duration (by simp)]
    · rw [List.mem_map] at h
      obtain ⟨r1, hr1, he⟩ := h
      rw [← he]
      exact (make_dedupe_key_eq _ _ _ _ ((hall r1 hr1).trans hr0.symm)).2
  show make_dedupe_key (firstNonNull ((r0 :: g0).map Rec.title))
    (firstNonNull ((r0 :: g0).map Rec.duration)) = k
  unfold make_dedupe_key
  rw [htitle, hdur]
  exact hr0

theorem firstKeys_nodup (l : List Line) : (firstKeys l).Nodup := by
  induction l with
  | nil => exact List.nodup_nil
  | cons k ks ih =>
    refine List.nodup_cons.mpr ⟨?_, List.Nodup.filter _ ih⟩
    intro hmem
    have h2 := (List.mem_filter.mp hmem).2
    simp at h2

theorem mem_firstKeys (l : List Line) (x : Line) : x ∈ firstKeys l ↔ x ∈ l := by
  induction l with
  | nil => simp [firstKeys]
  | cons k ks ih =>
    simp only [firstKeys, List.mem_cons, List.mem_filter, ih]
    constructor
    · rintro (rfl | ⟨h1, _⟩)
      · exact Or.inl rfl
      · exact Or.inr h1
    · rintro (rfl | h1)
      · exact Or.inl rfl
      · by_cases he : x = k
        · exact Or.inl he
        · exact Or.inr ⟨h1, by simpa using he⟩

theorem firstKeys_of_nodup (l : List Line) (h : l.Nodup) : firstKeys l = l := by
  induction l with
  | nil => rfl
  | cons k ks ih =>
    show k :: (firstKeys ks).filter (fun x => x ≠ k) = k :: ks
    rw [ih (List.nodup_cons.mp h).2]
    congr 1
    apply List.filter_eq_self.mpr
    intro a ha
    have hk : k ∉ ks := (List.nodup_cons.mp h).1
    simp only [decide_eq_true_eq]
    intro he
    subst he
    exact hk ha

theorem foldl_max_spec (n : Int) (ns : List Int) :
    ns.foldl max n ∈ n :: ns ∧ ∀ x ∈ n :: ns, x ≤ ns.foldl max n := by
  induction ns generalizing n with
  | nil =>
    refine ⟨List.mem_cons_self _ _, ?_⟩
    intro x hx
    rcases List.mem_cons.mp hx with rfl | hx2
    · exact le_refl x
    · cases hx2
  | cons a ns ih =>
    obtain ⟨h1, h2⟩ := ih (max n a)
    rw [List.foldl_cons]
    constructor
    · rcases List.mem_cons.mp h1 with he | he
      · rcases max_choice n a with hm | hm
        · rw [he, hm]
          exact List.mem_cons_self _ _
        · rw [he, hm]
          exact List.mem_cons.mpr (Or.inr (List.mem_cons_self _ _))
      · exact List.mem_cons.mpr (Or.inr (List.mem_cons.mpr (Or.inr he)))
    · intro x hx
      have hmax := h2 (max n a) (List.mem_cons_self _ _)
      rcases List.mem_cons.mp hx with rfl | hx2
      · exact le_trans (le_max_left x a) hmax
      · rcases List.mem_cons.mp hx2 with rfl | hx3
        · exact le_trans (le_max_right n x) hmax
        · exact h2 x (List.mem_cons.mpr (Or.inr hx3))

theorem maxAgg_spec (vs : List Val) :
    (vs.filterMap pKey = [] ∧ maxAgg vs = Val.null) ∨
    (∃ m, maxAgg vs = Val.int m ∧ m ∈ vs.filterMap pKey ∧
      ∀ x ∈ vs.filterMap pKey, x ≤ m) := by
  unfold maxAgg
  cases hf : vs.filterMap pKey with
  | nil => exact Or.inl ⟨rfl, rfl⟩
  | cons n ns =>
    right
    obtain ⟨h1, h2⟩ := foldl_max_spec n ns
    exact ⟨ns.foldl max n, rfl, h1, h2⟩

theorem maxAgg_eq_of (vs : List Val) (v : Int) (hv : v ∈ vs.filterMap pKey)
    (hub : ∀ x ∈ vs.filterMap pKey, x ≤ v) : maxAgg vs = Val.int v := by
  rcases maxAgg_spec vs with ⟨h1, _⟩ | ⟨m, h2, h3, h4⟩
  · rw [h1] at hv
    cases hv
  · rw [h2, le_antisymm (h4 v hv) (hub m h3)]

theorem maxAgg_perm (vs1 vs2 : List Val) (hp : List.Perm vs1 vs2) :
    maxAgg vs1 = maxAgg vs2 := by
  have hf : List.Perm (vs1.filterMap pKey) (vs2.filterMap pKey) := hp.filterMap _
  rcases maxAgg_spec vs1 with ⟨h1, h2⟩ | ⟨m1, h2, h3, h4⟩
  · rcases maxAgg_spec vs2 with ⟨g1, g2⟩ | ⟨m2, g2, g3, g4⟩
    · rw [h2, g2]
    · exfalso
      rw [h1] at hf
      rw [hf.symm.eq_nil] at g3
      cases g3
  · rcases maxAgg_spec vs2 with ⟨g1, g2⟩ | ⟨m2, g2, g3, g4⟩
    · exfalso
      rw [g1] at hf
      rw [hf.eq_nil] at h3
      cases h3
    · rw [h2, g2, le_antisymm (g4 m1 (hf.mem_iff.mp h3)) (h4 m2 (hf.mem_iff.mpr g3))]

theorem leSort_total (a b : Option Int) : leSort a b = true ∨ leSort b a = true := by
  cases a with
  | none => exact Or.inl rfl
  | some x =>
    cases b with
    | none => exact Or.inr rfl
    | some y =>
      rcases le_total x y with h | h
      · exact Or.inl (by simpa [leSort] using h)
      · exact Or.inr (by simpa [leSort] using h)

theorem leSort_trans (a b c : Option Int) (h1 : leSort a b = true) (h2 : leSort b c = true) :
    leSort a c = true := by
  cases a with
  | none => rfl
  | some x =>
    cases b with
    | none => cases h1
    | some y =>
      cases c with
      | none => cases h2
      | some z =>
        simp only [leSort, decide_eq_true_eq] at h1 h2 ⊢
        exact le_trans h1 h2

theorem mem_insDesc (r x : Rec) (l : List Rec) :
    x ∈ insDesc r l ↔ x = r ∨ x ∈ l := by
  rw [(insDesc_perm r l).mem_iff]
  exact List.mem_cons

theorem insDesc_sorted (r : Rec) (l : List Rec)
    (h : List.Pairwise (fun a b => leSort (pKey b.plays) (pKey a.plays) = true) l) :
    List.Pairwise (fun a b => leSort (pKey b.plays) (pKey a.plays) = true) (insDesc r l) := by
  induction l with
  | nil => exact List.pairwise_singleton _ r
  | cons x xs ih =>
    unfold insDesc
    split
    · rename_i hle
      refine List.pairwise_cons.mpr ⟨?_, h⟩
      intro y hy
      rcases List.mem_cons.mp hy with rfl | hy2
      · exact hle
      · exact leSort_trans _ _ _ ((List.pairwise_cons.mp h).1 y hy2) hle
    · rename_i hle
      have hxr : leSort (pKey r.plays) (pKey x.plays) = true := by
        rcases leSort_total (pKey x.plays) (pKey r.plays) with h2 | h2
        · exact absurd h2 hle
        · exact h2
      refine List.pairwise_cons.mpr ⟨?_, ih (List.pairwise_cons.mp h).2⟩
      intro y hy
      rcases (mem_insDesc r y xs).mp hy with rfl | hy2
      · exact hxr
      · exact (List.pairwise_cons.mp h).1 y hy2

theorem sortDesc_sorted (rs : List Rec) :
    List.Pairwise (fun a b => leSort (pKey b.plays) (pKey a.plays) = true) (sortDesc rs) := by
  induction rs with
  | nil => exact List.Pairwise.nil
  | cons r rs ih => exact insDesc_sorted r (sortDesc rs) ih

theorem insDesc_all_le (r : Rec) (m : List Rec)
    (h : ∀ y ∈ m, leSort (pKey y.plays) (pKey r.plays) = true) :
    insDesc r m = r :: m := by
  cases m with
  | nil => rfl
  | cons x xs =>
    unfold insDesc
    rw [if_pos (h x (List.mem_cons_self _ _))]

theorem insDesc_cons (r x : Rec) (xs : List Rec) :
    insDesc r (x :: xs) =
      if leSort (pKey x.plays) (pKey r.plays) = true then r :: x :: xs
      else x :: insDesc r xs := rfl

theorem filter_insDesc (p : Rec → Bool) (r : Rec) (l : List Rec)
    (hs : List.Pairwise (fun a b => leSort (pKey b.plays) (pKey a.plays) = true) l) :
    (insDesc r l).filter p = if p r = true then insDesc r (l.filter p) else l.filter p := by
  induction l with
  | nil =>
    show [r].filter p = _
    by_cases hpr : p r = true
    · rw [if_pos hpr, List.filter_cons, if_pos hpr]
      rfl
    · rw [if_neg hpr, List.filter_cons, if_neg hpr]
  | cons x xs ih =>
    have hp2 := List.pairwise_cons.mp hs
    by_cases hle : leSort (pKey x.plays) (pKey r.plays) = true
    · rw [insDesc_cons, if_pos hle]
      by_cases hpr : p r = true
      · rw [if_pos hpr]
        by_cases hpx : p x = true
        · rw [List.filter_cons, if_pos hpr, List.filter_cons, if_pos hpx,
            insDesc_cons, if_pos hle]
        · rw [List.filter_cons, if_pos hpr, List.filter_cons, if_neg hpx]
          rw [insDesc_all_le r (xs.filter p) (fun y hy =>
            leSort_trans _ _ _ (hp2.1 y (List.mem_filter.mp hy).1) hle)]
      · rw [if_neg hpr, List.filter_cons, if_neg hpr]
    · rw [insDesc_cons, if_neg hle]
      rw [List.filter_cons]
      by_cases hpx : p x = true
      · rw [if_pos hpx, ih hp2.2]
        by_cases hpr : p r = true
        · rw [if_pos hpr, if_pos hpr, List.filter_cons, if_pos hpx,
            insDesc_cons, if_neg hle]
        · rw [if_neg hpr, if_neg hpr, List.filter_cons, if_pos hpx]
      · rw [if_neg hpx, ih hp2.2]
        by_cases hpr : p r = true
        · rw [if_pos hpr, if_pos hpr, List.filter_cons, if_neg hpx]
        · rw [if_neg hpr, if_neg hpr, List.filter_cons, if_neg hpx]

theorem sortDesc_filter (p : Rec → Bool) (rs : List Rec) :
    (sortDesc rs).filter p = sortDesc (rs.filter p) := by
  induction rs with
  | nil => rfl
  | cons r rs ih =>
    show (insDesc r (sortDesc rs)).filter p = sortDesc ((r :: rs).filter p)
    rw [filter_insDesc p r (sortDesc rs) (sortDesc_sorted rs), ih, List.filter_cons]
    by_cases hpr : p r = true
    · rw [if_pos hpr, if_pos hpr]
      rfl
    · rw [if_neg hpr, if_neg hpr]

theorem sortDesc_head_find_max (m : List Rec)
    (hplays : ∀ r ∈ m, ∃ n : Int, r.plays = Val.int n) :
    (sortDesc m).head? = m.find? (fun r => r.plays = maxAgg (m.map Rec.plays)) := by
  induction m with
  | nil => rfl
  | cons r m2 ih =>
    obtain ⟨n, hn⟩ := hplays r (List.mem_cons_self _ _)
    have hplays2 : ∀ x ∈ m2, ∃ k : Int, x.plays = Val.int k := fun x hx =>
      hplays x (List.mem_cons.mpr (Or.inr hx))
    show (insDesc r (sortDesc m2)).head? = _
    cases hs : sortDesc m2 with
    | nil =>
      have hm2 : m2 = [] := by
        have hperm := sortDesc_perm m2
        rw [hs] at hperm
        exact (hperm.symm).eq_nil
      subst hm2
      have hmax : maxAgg ((r :: []).map Rec.plays) = Val.int n := by
        apply maxAgg_eq_of
        · simp [hn, pKey]
        · intro x hx
          simp [hn, pKey] at hx
          rw [hx]
      rw [List.find?_cons_of_pos _ (by rw [hn, hmax]; simp)]
      rfl
    | cons x xs =>
      have hih := ih hplays2
      rw [hs] at hih
      obtain ⟨mx, hmx⟩ : ∃ k : Int, x.plays = Val.int k := by
        apply hplays2
        have hxs : x ∈ sortDesc m2 := by
          rw [hs]
          exact List.mem_cons_self _ _
        exact (mem_sortDesc m2 x).mp hxs
      have hxfind : m2.find? (fun r => r.plays = maxAgg (m2.map Rec.plays)) = some x :=
        hih.symm
      have hxmax : x.plays = maxAgg (m2.map Rec.plays) := by
        have h2 := List.find?_some hxfind
        simpa using h2
      have hM2 : maxAgg (m2.map Rec.plays) = Val.int mx := by
        rw [← hxmax, hmx]
      unfold insDesc
      by_cases hle : leSort (pKey x.plays) (pKey r.plays) = true
      · rw [if_pos hle]
        have hmxn : mx ≤ n := by
          rw [hmx, hn] at hle
          simpa [pKey, leSort] using hle
        have hmaxall : maxAgg ((r :: m2).map Rec.plays) = Val.int n := by
          apply maxAgg_eq_of
          · simp only [List.map_cons, List.filterMap_cons, hn, pKey]
            exact List.mem_cons_self _ _
          · intro y hy
            simp only [List.map_cons, List.filterMap_cons, hn, pKey] at hy
            rcases List.mem_cons.mp hy with rfl | hy2
            · exact le_refl y
            · rcases maxAgg_spec (m2.map Rec.plays) with ⟨e1, e2⟩ | ⟨mm, e2, e3, e4⟩
              · rw [e2] at hM2
                cases hM2
              · have hmm : mm = mx := by
                  have h3 := e2.symm.trans hM2
                  injection h3
                exact le_trans (hmm ▸ e4 y hy2) hmxn
        rw [List.find?_cons_of_pos _ (by rw [hn, hmaxall]; simp)]
        rfl
      · rw [if_neg hle]
        have hnmx : n < mx := by
          rw [hmx, hn] at hle
          simp only [pKey, leSort, decide_eq_true_eq] at hle
          omega
        have hmaxall : maxAgg ((r :: m2).map Rec.plays) = Val.int mx := by
          apply maxAgg_eq_of
          · simp only [List.map_cons, List.filterMap_cons, hn, pKey]
            rcases maxAgg_spec (m2.map Rec.plays) with ⟨e1, e2⟩ | ⟨mm, e2, e3, e4⟩
            · rw [e2] at hM2
              cases hM2
            · have hmm : mm = mx := by
                have h3 := e2.symm.trans hM2
                injection h3
              exact List.mem_cons.mpr (Or.inr (hmm ▸ e3))
          · intro y hy
            simp only [List.map_cons, List.filterMap_cons, hn, pKey] at hy
            rcases List.mem_cons.mp hy with rfl | hy2
            · exact le_of_lt hnmx
            · rcases maxAgg_spec (m2.map Rec.plays) with ⟨e1, e2⟩ | ⟨mm, e2, e3, e4⟩
              · rw [e2] at hM2
                cases hM2
              · have hmm : mm = mx := by
                  have h3 := e2.symm.trans hM2
                  injection h3
                exact hmm ▸ e4 y hy2
        rw [List.find?_cons_of_neg _ (by
          rw [hn, hmaxall]
          simp only [decide_eq_true_eq]
          intro h3
          injection h3 with h3
          omega)]
        rw [hmaxall, ← hM2, hxfind]
        rfl

theorem nodup_filter_eq (l : List Line) (k : Line) (hn : l.Nodup) (hk : k ∈ l) :
    l.filter (fun x => x = k) = [k] := by
  induction l with
  | nil => cases hk
  | cons a l ih =>
    rw [List.filter_cons]
    rcases List.mem_cons.mp hk with rfl | h2
    · rw [if_pos (by simp)]
      have hnila : l.filter (fun x => x = k) = [] := List.filter_eq_nil_iff.mpr (by
        intro b hb
        simp only [decide_eq_true_eq]
        intro he
        rw [he] at hb
        exact (List.nodup_cons.mp hn).1 hb)
      rw [hnila]
    · rw [if_neg (by
        simp only [decide_eq_true_eq]
        intro he
        subst he
        exact (List.nodup_cons.mp hn).1 h2)]
      exact ih (List.nodup_cons.mp hn).2 h2

theorem nodup_key_filter (l : List Rec) (hn : (l.map keyOf).Nodup) (x : Rec) (hx : x ∈ l) :
    l.filter (fun r => keyOf r = keyOf x) = [x] := by
  induction l with
  | nil => cases hx
  | cons a l ih =>
    have hna : keyOf a ∉ l.map keyOf ∧ (l.map keyOf).Nodup := by
      rw [← List.nodup_cons]
      simpa using hn
    rw [List.filter_cons]
    rcases List.mem_cons.mp hx with rfl | h2
    · rw [if_pos (by simp)]
      have hnil : l.filter (fun r => keyOf r = keyOf x) = [] := List.filter_eq_nil_iff.mpr (by
        intro b hb
        simp only [decide_eq_true_eq]
        intro he
        apply hna.1
        rw [← he]
        exact List.mem_map_of_mem keyOf hb)
      rw [hnil]
    · rw [if_neg (by
        simp only [decide_eq_true_eq]
        intro he
        apply hna.1
        rw [he]
        exact List.mem_map_of_mem keyOf h2)]
      exact ih hna.2 h2

theorem dedupe_plays_shape (rs : List Rec) (r : Rec) (h : r ∈ dedupe rs) :
    r.plays = Val.null ∨ ∃ n : Int, r.plays = Val.int n := by
  unfold dedupe at h
  rw [List.mem_map] at h
  obtain ⟨k, hk, rfl⟩ := h
  show maxAgg _ = Val.null ∨ ∃ n, maxAgg _ = Val.int n
  rcases maxAgg_spec (((sortDesc rs).filter (fun r => keyOf r = k)).map Rec.plays) with
    ⟨_, h2⟩ | ⟨m, h2, _, _⟩
  · exact Or.inl h2
  · exact Or.inr ⟨m, h2⟩

theorem firstNonNull_singleton (v : Val) : firstNonNull [v] = v := by
  cases v <;> rfl

theorem maxAgg_singleton_ok (v : Val) (h : v = Val.null ∨ ∃ n : Int, v = Val.int n) :
    maxAgg [v] = v := by
  rcases h with rfl | ⟨n, rfl⟩ <;> rfl

theorem aggGroup_singleton (r : Rec)
    (h : r.plays = Val.null ∨ ∃ n : Int, r.plays = Val.int n) : aggGroup [r] = r := by
  obtain ⟨t, p, du, re, co⟩ := r
  show Rec.mk (firstNonNull [t]) (maxAgg [p]) (firstNonNull [du]) (firstNonNull [re])
    (firstNonNull [co]) = Rec.mk t p du re co
  rw [firstNonNull_singleton, firstNonNull_singleton, firstNonNull_singleton,
    firstNonNull_singleton, maxAgg_singleton_ok p h]

theorem dedupe_keys (rs : List Rec) :
    (dedupe rs).map keyOf = firstKeys ((sortDesc rs).map keyOf) := by
  unfold dedupe
  rw [List.map_map]
  have hcong : ∀ k ∈ firstKeys ((sortDesc rs).map keyOf),
      (keyOf ∘ fun k2 => aggGroup ((sortDesc rs).filter (fun r => keyOf r = k2))) k =
        id k := by
    intro k hk
    have hk2 : k ∈ (sortDesc rs).map keyOf := (mem_firstKeys _ _).mp hk
    rw [List.mem_map] at hk2
    obtain ⟨r2, hr2, hr2k⟩ := hk2
    have hgne : (sortDesc rs).filter (fun r => keyOf r = k) ≠ [] := by
      intro hnil
      have h3 := List.filter_eq_nil_iff.mp hnil r2 hr2
      simp [hr2k] at h3
    simp only [Function.comp, id]
    exact keyOf_aggGroup _ k hgne (fun r hr => by
      have h3 := (List.mem_filter.mp hr).2
      simpa using h3)
  rw [List.map_congr_left hcong, List.map_id]

theorem dedupe_filter_key (rs : List Rec) (k : Line) (hk : ∃ r ∈ rs, keyOf r = k) :
    (dedupe rs).filter (fun r => keyOf r = k) =
      [aggGroup ((sortDesc rs).filter (fun r => keyOf r = k))] := by
  unfold dedupe
  rw [List.filter_map]
  have hcong : List.filter
      ((fun r => keyOf r = k) ∘ fun k2 =>
        aggGroup ((sortDesc rs).filter (fun r => keyOf r = k2)))
      (firstKeys ((sortDesc rs).map keyOf)) =
      List.filter (fun k2 => k2 = k) (firstKeys ((sortDesc rs).map keyOf)) := by
    apply List.filter_congr
    intro k2 hk2
    have hk2m : k2 ∈ (sortDesc rs).map keyOf := (mem_firstKeys _ _).mp hk2
    rw [List.mem_map] at hk2m
    obtain ⟨r2, hr2, hr2k⟩ := hk2m
    have hgne : (sortDesc rs).filter (fun r => keyOf r = k2) ≠ [] := by
      intro hnil
      have h3 := List.filter_eq_nil_iff.mp hnil r2 hr2
      simp [hr2k] at h3
    have hkey := keyOf_aggGroup _ k2 hgne (fun r hr => by
      have h3 := (List.mem_filter.mp hr).2
      simpa using h3)
    simp only [Function.comp]
    rw [hkey]
  rw [hcong]
  have hkmem : k ∈ firstKeys ((sortDesc rs).map keyOf) := by
    rw [mem_firstKeys, List.mem_map]
    obtain ⟨r0, hr0, hr0k⟩ := hk
    exact ⟨r0, (mem_sortDesc rs r0).mpr hr0, hr0k⟩
  rw [nodup_filter_eq _ k (firstKeys_nodup _) hkmem]
  rfl

theorem not_null_bool (v : Val) (h : v ≠ Val.null) : (!(v.isNull)) = true := by
  cases v with
  | null => exact absurd rfl h
  | str s => rfl
  | int n => rfl

theorem firstNonNull_all_nonnull (vs : List Val)
    (h : ∀ v ∈ vs, (!(v.isNull)) = true) :
    firstNonNull vs = vs.headD Val.null := by
  unfold firstNonNull
  rw [List.filter_eq_self.mpr h]

/-- C9: deduplication is idempotent up to order — applying the deduplicator
to its own output yields the same records (as a permutation, i.e. the same
set) as applying it once. -/
theorem c9_dedupe_idempotent (rs : List Rec) :
    List.Perm (dedupe (dedupe rs)) (dedupe rs) := by
  have hnod : ((dedupe rs).map keyOf).Nodup := by
    rw [dedupe_keys]
    exact firstKeys_nodup _
  have hnod2 : ((sortDesc (dedupe rs)).map keyOf).Nodup :=
    ((sortDesc_perm (dedupe rs)).map keyOf).nodup_iff.mpr hnod
  have hmain : dedupe (dedupe rs) = sortDesc (dedupe rs) := by
    show (firstKeys ((sortDesc (dedupe rs)).map keyOf)).map
        (fun k => aggGroup ((sortDesc (dedupe rs)).filter (fun r => keyOf r = k))) =
      sortDesc (dedupe rs)
    rw [firstKeys_of_nodup _ hnod2, List.map_map]
    rw [show List.map
        ((fun k => aggGroup ((sortDesc (dedupe rs)).filter (fun r => keyOf r = k))) ∘ keyOf)
        (sortDesc (dedupe rs)) = List.map id (sortDesc (dedupe rs)) from
      List.map_congr_left (fun x hx => by
        simp only [Function.comp, id]
        rw [nodup_key_filter _ hnod2 x hx]
        exact aggGroup_singleton x (dedupe_plays_shape rs x ((mem_sortDesc _ _).mp hx)))]
    rw [List.map_id]
  rw [hmain]
  exact sortDesc_perm _

/-! ## C4: the dedupe aggregation -/

/-- C4 counterexample: the claim says title, duration, release date AND
cover URL are all taken from the highest-plays member of the group. The
code aggregates every non-plays column with pandas "first", which skips
nulls: with two same-key records, plays 120 (null cover) and plays 100
(cover "u"), the deduped record takes release_date "2000" from the
plays-120 member but cover_url "u" from the plays-100 member, while the
highest-plays member (head of the plays-descending sort) has a null
cover_url. -/
theorem c4_counterexample :
    dedupe [recA, recB] =
      [⟨Val.str ['a'], Val.int 120, Val.str "1:00".toList, Val.str "2000".toList,
        Val.str ['u']⟩] ∧
    (sortDesc [recA, recB]).head?.map Rec.cover_url = some Val.null :=
  ⟨by decide, by decide⟩

/-- C4 amended: within each dedupe-key group (all plays parseable ints;
title, duration, release_date non-null), the deduped output has exactly one
record for the group: its plays is the group maximum; its title, duration
and release_date come from the first group member attaining that maximum
(the highest-plays member, ties broken by first encountered); its cover_url
is the first NON-NULL cover in plays-descending stable order, which need
not belong to the highest-plays member. -/
theorem c4_dedupe_amended (rs : List Rec) (k : Line)
    (hk : ∃ r ∈ rs, keyOf r = k)
    (hplays : ∀ r ∈ rs, ∃ n : Int, r.plays = Val.int n)
    (hfields : ∀ r ∈ rs, r.title ≠ Val.null ∧ r.duration ≠ Val.null ∧
      r.release_date ≠ Val.null) :
    ∃ rep,
      (rs.filter (fun r => keyOf r = k)).find?
        (fun r => r.plays = maxAgg ((rs.filter (fun r => keyOf r = k)).map Rec.plays)) =
        some rep ∧
      (dedupe rs).filter (fun r => keyOf r = k) =
        [⟨rep.title,
          maxAgg ((rs.filter (fun r => keyOf r = k)).map Rec.plays),
          rep.duration, rep.release_date,
          firstNonNull (((sortDesc rs).filter (fun r => keyOf r = k)).map
            Rec.cover_url)⟩] := by
  have hsg : (sortDesc rs).filter (fun r => keyOf r = k) =
      sortDesc (rs.filter (fun r => keyOf r = k)) := sortDesc_filter _ rs
  have hgne : rs.filter (fun r => keyOf r = k) ≠ [] := by
    obtain ⟨r0, hr0, hr0k⟩ := hk
    intro hnil
    have h3 := List.filter_eq_nil_iff.mp hnil r0 hr0
    simp [hr0k] at h3
  have hplaysg : ∀ r ∈ rs.filter (fun r => keyOf r = k), ∃ n : Int, r.plays = Val.int n :=
    fun r hr => hplays r (List.mem_filter.mp hr).1
  have hhead := sortDesc_head_find_max (rs.filter (fun r => keyOf r = k)) hplaysg
  have hne2 : sortDesc (rs.filter (fun r => keyOf r = k)) ≠ [] := by
    intro h
    apply hgne
    have hperm := sortDesc_perm (rs.filter (fun r => keyOf r = k))
    rw [h] at hperm
    exact hperm.symm.eq_nil
  cases hs : sortDesc (rs.filter (fun r => keyOf r = k)) with
  | nil => exact absurd hs hne2
  | cons rep rest =>
    have hfind : (rs.filter (fun r => keyOf r = k)).find?
        (fun r => r.plays = maxAgg ((rs.filter (fun r => keyOf r = k)).map Rec.plays)) =
        some rep := by
      rw [← hhead, hs]
      rfl
    refine ⟨rep, hfind, ?_⟩
    rw [dedupe_filter_key rs k hk]
    have hS : (sortDesc rs).filter (fun r => keyOf r = k) = rep :: rest := by
      rw [hsg, hs]
    have hmemS : ∀ r ∈ (sortDesc rs).filter (fun r => keyOf r = k), r ∈ rs := fun r hr =>
      (mem_sortDesc rs r).mp (List.mem_filter.mp hr).1
    have hfnnD : ∀ f : Rec → Val, (∀ r ∈ rs, f r ≠ Val.null) →
        firstNonNull (((sortDesc rs).filter (fun r => keyOf r = k)).map f) = f rep := by
      intro f hf
      rw [firstNonNull_all_nonnull _ (by
        intro v hv
        rw [List.mem_map] at hv
        obtain ⟨r2, hr2, he⟩ := hv
        rw [← he]
        exact not_null_bool _ (hf r2 (hmemS r2 hr2)))]
      rw [hS]
      rfl
    have ht := hfnnD Rec.title (fun r hr => (hfields r hr).1)
    have hdu := hfnnD Rec.duration (fun r hr => (hfields r hr).2.1)
    have hre := hfnnD Rec.release_date (fun r hr => (hfields r hr).2.2)
    have hpl : maxAgg (((sortDesc rs).filter (fun r => keyOf r = k)).map Rec.plays) =
        maxAgg ((rs.filter (fun r => keyOf r = k)).map Rec.plays) := by
      apply maxAgg_perm
      rw [hsg]
      exact (sortDesc_perm _).map _
    show [aggGroup ((sortDesc rs).filter (fun r => keyOf r = k))] = _
    unfold aggGroup
    rw [ht, hdu, hre, hpl]

/-- C4 amended, witnessed at the two concrete duplicate-key records. -/
theorem c4_dedupe_amended_witness :
    (∃ r ∈ [recA, recB], keyOf r = keyOf recA) ∧
    (∀ r ∈ [recA, recB], r.title ≠ Val.null ∧ r.duration ≠ Val.null ∧
      r.release_date ≠ Val.null) ∧
    (∃ rep,
      (([recA, recB].filter (fun r => keyOf r = keyOf recA)).find?
        (fun r => r.plays =
          maxAgg (([recA, recB].filter (fun r => keyOf r = keyOf recA)).map
            Rec.plays))) = some rep ∧
      (dedupe [recA, recB]).filter (fun r => keyOf r = keyOf recA) =
        [⟨rep.title,
          maxAgg (([recA, recB].filter (fun r => keyOf r = keyOf recA)).map Rec.plays),
          rep.duration, rep.release_date,
          firstNonNull (((sortDesc [recA, recB]).filter
            (fun r => keyOf r = keyOf recA)).map Rec.cover_url)⟩]) :=
  ⟨by decide, by decide,
    c4_dedupe_amended [recA, recB] (keyOf recA) (by decide)
      (by
        intro r hr
        rcases List.mem_cons.mp hr with rfl | hr2
        · exact ⟨120, rfl⟩
        · rcases List.mem_cons.mp hr2 with rfl | h3
          · exact ⟨100, rfl⟩
          · cases h3)
      (by decide)⟩

/-! ## C8: the title normalizer -/

theorem collapseWs_one (c : Char) :
    collapseWs [c] = if pyIsSpace c then [' '] else [c] := rfl

theorem collapseWs_two (c d : Char) (rest : Line) :
    collapseWs (c :: d :: rest) =
      if pyIsSpace c then
        (if pyIsSpace d then collapseWs (d :: rest) else ' ' :: collapseWs (d :: rest))
      else c :: collapseWs (d :: rest) := rfl

theorem wsNorm_one (c : Char) :
    wsNorm [c] = (!(pyIsSpace c) || decide (c = ' ')) := rfl

theorem wsNorm_two (c d : Char) (rest : Line) :
    wsNorm (c :: d :: rest) =
      ((!(pyIsSpace c) || (decide (c = ' ') && !(pyIsSpace d))) && wsNorm (d :: rest)) := rfl

theorem alookup_eq_none (c : Char) (t : List (Char × Char))
    (h : c ∉ t.map Prod.fst) : alookup c t = Option.none := by
  induction t with
  | nil => rfl
  | cons p ps ih =>
    simp only [List.map_cons, List.mem_cons] at h
    push_neg at h
    unfold alookup
    rw [if_neg (fun he => h.1 he.symm)]
    exact ih h.2

theorem nlookup_eq_none (c : Char) (t : List (Char × Line))
    (h : c ∉ t.map Prod.fst) : nlookup c t = Option.none := by
  induction t with
  | nil => rfl
  | cons p ps ih =>
    simp only [List.map_cons, List.mem_cons] at h
    push_neg at h
    unfold nlookup
    rw [if_neg (fun he => h.1 he.symm)]
    exact ih h.2

/-- The single-character behaviour of lower-case-then-strip-accents on a
non-combining character: it leaves exactly one residue character `bChar c`,
which is itself lower-case-fixed, decomposition-free, non-combining, and of
the same whitespace class as `c`. -/
theorem char_residue (c : Char) (hc : isMn c = false) :
    (nfdChar (pyLower c)).filter (fun d => !(isMn d)) = [bChar c] ∧
    pyLower (bChar c) = bChar c ∧
    nfdChar (bChar c) = [bChar c] ∧
    isMn (bChar c) = false ∧
    pyIsSpace (bChar c) = pyIsSpace c := by
  by_cases hdom :
    c ∈ lowerTable.map Prod.fst ++ nfdTable.map Prod.fst ++ mnChars ++ wsChars
  · have hall : ∀ x ∈ lowerTable.map Prod.fst ++ nfdTable.map Prod.fst ++
        mnChars ++ wsChars,
        isMn x = false →
        (nfdChar (pyLower x)).filter (fun d => !(isMn d)) = [bChar x] ∧
        pyLower (bChar x) = bChar x ∧
        nfdChar (bChar x) = [bChar x] ∧
        isMn (bChar x) = false ∧
        pyIsSpace (bChar x) = pyIsSpace x := by decide
    exact hall c hdom hc
  · simp only [List.append_assoc, List.mem_append, not_or] at hdom
    obtain ⟨h1, h2, h3, h4⟩ := hdom
    have hl : pyLower c = c := by
      unfold pyLower
      rw [alookup_eq_none c _ h1]
      rfl
    have hn : nfdChar c = [c] := by
      unfold nfdChar
      rw [nlookup_eq_none c _ h2]
      rfl
    have hfil : (nfdChar (pyLower c)).filter (fun d => !(isMn d)) = [c] := by
      rw [hl, hn]
      simp [List.filter_cons, hc]
    have hb : bChar c = c := by
      unfold bChar
      rw [hfil]
      rfl
    rw [hb]
    exact ⟨hfil, hl, hn, hc, rfl⟩

/-- On a combining-mark-free line, lower-casing then accent-stripping acts
as the per-character residue map. -/
theorem strip_accents_map_lower (s : Line) (hs : ∀ c ∈ s, isMn c = false) :
    strip_accents (s.map pyLower) = s.map bChar := by
  induction s with
  | nil => rfl
  | cons c t ih =>
    have hr := char_residue c (hs c (List.mem_cons_self _ _))
    have iht := ih (fun d hd => hs d (List.mem_cons.mpr (Or.inr hd)))
    show ((pyLower c :: t.map pyLower).flatMap nfdChar).filter (fun d => !(isMn d)) =
      bChar c :: t.map bChar
    rw [List.flatMap_cons, List.filter_append, hr.1]
    unfold strip_accents at iht
    rw [iht]
    rfl

theorem mem_collapseWs (w : Line) (c : Char) (h : c ∈ collapseWs w) :
    c = ' ' ∨ c ∈ w := by
  induction w with
  | nil => cases h
  | cons a t ih =>
    cases t with
    | nil =>
      rw [collapseWs_one] at h
      by_cases ha : pyIsSpace a = true
      · rw [if_pos ha] at h
        exact Or.inl (List.mem_singleton.mp h)
      · rw [if_neg ha] at h
        exact Or.inr h
    | cons d rest =>
      rw [collapseWs_two] at h
      by_cases ha : pyIsSpace a = true
      · rw [if_pos ha] at h
        by_cases hd : pyIsSpace d = true
        · rw [if_pos hd] at h
          rcases ih h with h2 | h2
          · exact Or.inl h2
          · exact Or.inr (List.mem_cons.mpr (Or.inr h2))
        · rw [if_neg hd] at h
          rcases List.mem_cons.mp h with rfl | h2
          · exact Or.inl rfl
          · rcases ih h2 with h3 | h3
            · exact Or.inl h3
            · exact Or.inr (List.mem_cons.mpr (Or.inr h3))
      · rw [if_neg ha] at h
        rcases List.mem_cons.mp h with rfl | h2
        · exact Or.inr (List.mem_cons_self _ _)
        · rcases ih h2 with h3 | h3
          · exact Or.inl h3
          · exact Or.inr (List.mem_cons.mpr (Or.inr h3))

theorem collapseWs_ne_nil (w : Line) (hw : w ≠ []) : collapseWs w ≠ [] := by
  induction w with
  | nil => exact absurd rfl hw
  | cons a t ih =>
    cases t with
    | nil =>
      rw [collapseWs_one]
      split <;> simp
    | cons d rest =>
      rw [collapseWs_two]
      have ih2 := ih (by simp)
      split
      · split
        · exact ih2
        · simp
      · simp

theorem collapseWs_head (w : Line)
    (hw : ∀ c, w.head? = some c → pyIsSpace c = false) :
    (collapseWs w).head? = w.head? := by
  cases w with
  | nil => rfl
  | cons a t =>
    have ha : pyIsSpace a = false := hw a rfl
    cases t with
    | nil =>
      rw [collapseWs_one, if_neg (by simp [ha])]
    | cons d rest =>
      rw [collapseWs_two, if_neg (by simp [ha])]
      rfl

theorem collapseWs_getLast (w : Line)
    (hw : ∀ c, w.getLast? = some c → pyIsSpace c = false) :
    (collapseWs w).getLast? = w.getLast? := by
  induction w with
  | nil => rfl
  | cons a t ih =>
    cases t with
    | nil =>
      have ha : pyIsSpace a = false := hw a rfl
      rw [collapseWs_one, if_neg (by simp [ha])]
    | cons d rest =>
      have hlast : (a :: d :: rest).getLast? = (d :: rest).getLast? :=
        List.getLast?_cons_cons
      have ihh := ih (fun c hc => hw c (by rw [hlast]; exact hc))
      have hne := collapseWs_ne_nil (d :: rest) (by simp)
      rw [collapseWs_two]
      by_cases hA : pyIsSpace a = true
      · rw [if_pos hA]
        by_cases hD : pyIsSpace d = true
        · rw [if_pos hD, ihh, hlast]
        · rw [if_neg hD]
          cases hcw : collapseWs (d :: rest) with
          | nil => exact absurd hcw hne
          | cons b u =>
            rw [List.getLast?_cons_cons, ← hcw, ihh, hlast]
      · rw [if_neg hA]
        cases hcw : collapseWs (d :: rest) with
        | nil => exact absurd hcw hne
        | cons b u =>
          rw [List.getLast?_cons_cons, ← hcw, ihh, hlast]

theorem wsNorm_collapseWs (w : Line) : wsNorm (collapseWs w) = true := by
  induction w with
  | nil => rfl
  | cons a t ih =>
    cases t with
    | nil =>
      rw [collapseWs_one]
      by_cases ha : pyIsSpace a = true
      · rw [if_pos ha]
        decide
      · rw [if_neg ha, wsNorm_one]
        have ha2 : pyIsSpace a = false := by simpa using ha
        simp [ha2]
    | cons d rest =>
      rw [collapseWs_two]
      by_cases ha : pyIsSpace a = true
      · rw [if_pos ha]
        by_cases hd : pyIsSpace d = true
        · rw [if_pos hd]
          exact ih
        · rw [if_neg hd]
          have hd2 : pyIsSpace d = false := by simpa using hd
          have hh : (collapseWs (d :: rest)).head? = (d :: rest).head? :=
            collapseWs_head _ (by
              intro c hc
              injection hc with hc
              rw [← hc]
              exact hd2)
          cases hcw : collapseWs (d :: rest) with
          | nil => exact absurd hcw (collapseWs_ne_nil _ (by simp))
          | cons b u =>
            rw [hcw] at hh
            injection hh with hh
            rw [hcw] at ih
            rw [wsNorm_two, ih, hh, hd2]
            decide
      · rw [if_neg ha]
        have ha2 : pyIsSpace a = false := by simpa using ha
        cases hcw : collapseWs (d :: rest) with
        | nil => exact absurd hcw (collapseWs_ne_nil _ (by simp))
        | cons b u =>
          rw [hcw] at ih
          rw [wsNorm_two, ih, ha2]
          simp

theorem collapseWs_of_wsNorm (w : Line) (h : wsNorm w = true) : collapseWs w = w := by
  induction w with
  | nil => rfl
  | cons a t ih =>
    cases t with
    | nil =>
      rw [wsNorm_one] at h
      rw [collapseWs_one]
      by_cases ha : pyIsSpace a = true
      · rw [if_pos ha]
        have h2 : decide (a = ' ') = true := by
          rcases Bool.or_eq_true_iff.mp h with h2 | h2
          · rw [ha] at h2
            simp at h2
          · exact h2
        rw [of_decide_eq_true h2]
      · rw [if_neg ha]
    | cons d rest =>
      rw [wsNorm_two] at h
      obtain ⟨h1, h2⟩ := Bool.and_eq_true_iff.mp h
      rw [collapseWs_two]
      by_cases ha : pyIsSpace a = true
      · rw [if_pos ha]
        have h3 : (decide (a = ' ') && !(pyIsSpace d)) = true := by
          rcases Bool.or_eq_true_iff.mp h1 with h4 | h4
          · rw [ha] at h4
            simp at h4
          · exact h4
        obtain ⟨h5, h6⟩ := Bool.and_eq_true_iff.mp h3
        have hd : pyIsSpace d = false := by simpa using h6
        rw [if_neg (by simp [hd]), ih h2, of_decide_eq_true h5]
      · rw [if_neg ha, ih h2]

theorem collapseWs_idem (w : Line) : collapseWs (collapseWs w) = collapseWs w :=
  collapseWs_of_wsNorm _ (wsNorm_collapseWs w)

theorem dropWhile_head_not (p : Char → Bool) (l : Line) (c : Char)
    (h : (l.dropWhile p).head? = some c) : p c = false := by
  induction l with
  | nil => cases h
  | cons a t ih =>
    rw [List.dropWhile_cons] at h
    by_cases hp : p a = true
    · rw [if_pos hp] at h
      exact ih h
    · rw [if_neg hp] at h
      injection h with h
      rw [← h]
      simpa using hp

theorem pyStrip_head_not_ws (s : Line) (c : Char)
    (h : (pyStrip s).head? = some c) : pyIsSpace c = false := by
  unfold pyStrip at h
  obtain ⟨u, hu⟩ :=
    List.dropWhile_suffix (l := (s.dropWhile pyIsSpace).reverse) pyIsSpace
  have hA : ((s.dropWhile pyIsSpace).reverse.dropWhile pyIsSpace).reverse ++
      u.reverse = s.dropWhile pyIsSpace := by
    have h2 := congrArg List.reverse hu
    rw [List.reverse_append, List.reverse_reverse] at h2
    exact h2
  have hAh : (s.dropWhile pyIsSpace).head? = some c := by
    rw [← hA]
    cases hB : ((s.dropWhile pyIsSpace).reverse.dropWhile pyIsSpace).reverse with
    | nil =>
      rw [hB] at h
      cases h
    | cons b v =>
      rw [hB] at h
      injection h with h
      simp [h]
  exact dropWhile_head_not _ _ _ hAh

theorem pyStrip_last_not_ws (s : Line) (c : Char)
    (h : (pyStrip s).getLast? = some c) : pyIsSpace c = false := by
  unfold pyStrip at h
  rw [List.getLast?_reverse] at h
  exact dropWhile_head_not _ _ _ h

theorem pyStrip_id (s : Line)
    (h1 : ∀ c, s.head? = some c → pyIsSpace c = false)
    (h2 : ∀ c, s.getLast? = some c → pyIsSpace c = false) :
    pyStrip s = s := by
  cases s with
  | nil => rfl
  | cons a t =>
    have ha : pyIsSpace a = false := h1 a rfl
    unfold pyStrip
    rw [List.dropWhile_cons, if_neg (by simp [ha])]
    cases hrev : (a :: t).reverse with
    | nil => exact absurd (List.reverse_eq_nil_iff.mp hrev) (by simp)
    | cons b u =>
      have hb : pyIsSpace b = false := h2 b (by
        rw [← List.head?_reverse, hrev]
        rfl)
      rw [List.dropWhile_cons, if_neg (by simp [hb]), ← hrev,
        List.reverse_reverse]

theorem map_id_of_fixed (f : Char → Char) (s : Line) (h : ∀ c ∈ s, f c = c) :
    s.map f = s := by
  induction s with
  | nil => rfl
  | cons a t ih =>
    rw [List.map_cons, h a (List.mem_cons_self _ _),
      ih (fun c hc => h c (List.mem_cons.mpr (Or.inr hc)))]

theorem strip_accents_id (s : Line)
    (h : ∀ c ∈ s, nfdChar c = [c] ∧ isMn c = false) :
    strip_accents s = s := by
  induction s with
  | nil => rfl
  | cons c t ih =>
    have hc := h c (List.mem_cons_self _ _)
    have iht := ih (fun d hd => h d (List.mem_cons.mpr (Or.inr hd)))
    show ((c :: t).flatMap nfdChar).filter (fun d => !(isMn d)) = c :: t
    rw [List.flatMap_cons, hc.1, List.filter_append]
    unfold strip_accents at iht
    rw [iht]
    simp [List.filter_cons, hc.2]

/-- C8 counterexample: the normalizer is NOT idempotent on all strings.
On `"a ̀"` (`'a'`, space, combining grave accent) the first pass strips no
end-whitespace (the string ends in the mark, not in whitespace), then drops
the mark, leaving `"a "` with a trailing space; the second pass strips that
trailing space, so `normalize(normalize(x)) = "a" ≠ "a " = normalize(x)`. -/
theorem c8_counterexample :
    norm_title_preserve_version
        (norm_title_preserve_version ['a', ' ', '̀']) ≠
      norm_title_preserve_version ['a', ' ', '̀'] := by
  decide

/-- C8 amended: the normalizer is pure and deterministic (a function), is
accent/case-insensitive (`normalize("Αγάπη") = normalize("αγαπη")`), and is
idempotent on every string free of combining marks; idempotence can fail
when the input itself contains combining-mark characters next to
end-whitespace, because accent-stripping happens after end-trimming. -/
theorem c8_norm_amended (x : Line) (hx : ∀ c ∈ x, isMn c = false) :
    norm_title_preserve_version (norm_title_preserve_version x) =
      norm_title_preserve_version x ∧
    norm_title_preserve_version "Αγάπη".toList =
      norm_title_preserve_version "αγαπη".toList := by
  refine ⟨?_, by decide⟩
  have hsub : ∀ c ∈ pyStrip x, c ∈ x := by
    intro c hc
    unfold pyStrip at hc
    rw [List.mem_reverse] at hc
    have hc2 : c ∈ (x.dropWhile pyIsSpace).reverse :=
      (List.dropWhile_suffix pyIsSpace).subset hc
    rw [List.mem_reverse] at hc2
    exact (List.dropWhile_suffix pyIsSpace).subset hc2
  have hxm : ∀ c ∈ pyStrip x, isMn c = false := fun c hc => hx c (hsub c hc)
  have h1 : norm_title_preserve_version x =
      collapseWs ((pyStrip x).map bChar) := by
    unfold norm_title_preserve_version
    rw [strip_accents_map_lower _ hxm]
  have hgood : ∀ c ∈ collapseWs ((pyStrip x).map bChar),
      pyLower c = c ∧ nfdChar c = [c] ∧ isMn c = false := by
    intro c hc
    rcases mem_collapseWs _ c hc with rfl | hcw
    · exact ⟨by decide, by decide, by decide⟩
    · rw [List.mem_map] at hcw
      obtain ⟨c0, hc0, rfl⟩ := hcw
      have hr := char_residue c0 (hxm c0 hc0)
      exact ⟨hr.2.1, hr.2.2.1, hr.2.2.2.1⟩
  have hwhead : ∀ c, ((pyStrip x).map bChar).head? = some c →
      pyIsSpace c = false := by
    intro c hc
    rw [List.head?_map] at hc
    cases hps : (pyStrip x).head? with
    | none =>
      rw [hps] at hc
      cases hc
    | some c0 =>
      rw [hps] at hc
      injection hc with hc
      have hmem : c0 ∈ pyStrip x := List.mem_of_mem_head? (Option.mem_def.mpr hps)
      have hr := char_residue c0 (hxm c0 hmem)
      rw [← hc, hr.2.2.2.2]
      exact pyStrip_head_not_ws x c0 hps
  have hwlast : ∀ c, ((pyStrip x).map bChar).getLast? = some c →
      pyIsSpace c = false := by
    intro c hc
    rw [List.getLast?_map] at hc
    cases hps : (pyStrip x).getLast? with
    | none =>
      rw [hps] at hc
      cases hc
    | some c0 =>
      rw [hps] at hc
      injection hc with hc
      have hmem : c0 ∈ pyStrip x := List.mem_of_mem_getLast? (Option.mem_def.mpr hps)
      have hr := char_residue c0 (hxm c0 hmem)
      rw [← hc, hr.2.2.2.2]
      exact pyStrip_last_not_ws x c0 hps
  have hyhead : ∀ c, (collapseWs ((pyStrip x).map bChar)).head? = some c →
      pyIsSpace c = false := by
    intro c hc
    rw [collapseWs_head _ hwhead] at hc
    exact hwhead c hc
  have hylast : ∀ c, (collapseWs ((pyStrip x).map bChar)).getLast? = some c →
      pyIsSpace c = false := by
    intro c hc
    rw [collapseWs_getLast _ hwlast] at hc
    exact hwlast c hc
  rw [h1]
  unfold norm_title_preserve_version
  rw [pyStrip_id _ hyhead hylast,
    map_id_of_fixed pyLower _ (fun c hc => (hgood c hc).1),
    strip_accents_id _ (fun c hc => ⟨(hgood c hc).2.1, (hgood c hc).2.2⟩)]
  exact collapseWs_idem _

/-- C8 amended, witnessed at a concrete mark-free string with mixed case
and internal whitespace runs. -/
theorem c8_norm_amended_witness :
    (∀ c ∈ "  Fly   Me ".toList, isMn c = false) ∧
    (norm_title_preserve_version
        (norm_title_preserve_version "  Fly   Me ".toList) =
      norm_title_preserve_version "  Fly   Me ".toList ∧
    norm_title_preserve_version "Αγάπη".toList =
      norm_title_preserve_version "αγαπη".toList) :=
  ⟨by decide, c8_norm_amended "  Fly   Me ".toList (by decide)⟩
